import Mathlib

/-!
Verification of the p-isa-tools functional modeler core.

This file shallowly embeds the C++ sources of the repository
(`p_isa_functional_model.h`, `p_isa_instruction.h`, `p_isa_parser.cpp`,
`p_isa_memory_model.h`, `multiregister.h`, `pisaprogramruntime.h`,
`graph.h`) as executable Lean definitions and proves or refutes the
specification's claims about them.

Machine integers are modelled as `Nat` with explicit reductions
`% 2 ^ 32` / `% 2 ^ 64` at the points where the C++ code computes in
`uint32_t` / `uint64_t`.  `std::string` is modelled as `List Char`.
Fallible operations (out-of-range `std::vector` accesses, `std::stoi`
failures, thrown exceptions) return `Option`.
-/

namespace PISA

/-- Embeds `PISAFunctionalModel::montgomeryMul` (p_isa_functional_model.h,
lines 290-309), instantiated at `T = uint32_t` as in `main.cpp`.
`u = a * b` is exact in 64 bits for 32-bit inputs; `k = modulus - 2` is
computed in 32-bit arithmetic (modelled by adding `2 ^ 32` before the
truncating subtraction); `u += m * modulus` is 64-bit arithmetic, hence
the `% 2 ^ 64`.  The `use_mont = false` branch computes `a * b % modulus`
in 32-bit arithmetic. -/
def montgomeryMul (a b q : ℕ) (use_mont : Bool := true) : ℕ :=
  if use_mont then
    let u := a * b
    let k := (q + 2 ^ 32 - 2) % 2 ^ 32
    let t := u % 2 ^ 32
    let m := t * k % 2 ^ 32
    let u2 := (u + m * q) % 2 ^ 64 / 2 ^ 32
    if q ≤ u2 then u2 - q else u2
  else a * b % 2 ^ 32 % q

/-- Embeds `PISAFunctionalModel::montgomeryAdd` (p_isa_functional_model.h,
lines 311-335) at `T = uint32_t`.  `uint64_t u = a + b` first adds in
32-bit arithmetic (both operands are `uint32_t`), hence the `% 2 ^ 32`.
The `use_mont = false` branch is literally `a + b % modulus`, which by
C++ precedence is `a + (b % modulus)`, again in 32-bit arithmetic. -/
def montgomeryAdd (a b q : ℕ) (use_mont : Bool := true) : ℕ :=
  if use_mont then
    let u := (a + b) % 2 ^ 32
    if u < q then u else u - q
  else (a + b % q) % 2 ^ 32

/-! ## Instruction and operand model (p_isa_instruction.h, p_isa_instructions.h)

`std::string` is modelled as `List Char`.  An `Operand` keeps the semantic
fields `location`, `bank` and `immediate`; the cached `m_location_root` /
`m_location_index` fields of the C++ class are derived from `location` by
`splitLocation` (embedded below for claim C5, whose theorem shows that
`setLocation` stores back exactly the original string), and `m_bank` has no
initializer in the parsing constructors, which is modelled by `Option`:
`none` is an indeterminate (never-written) bank. -/

/-- The operand of a P-ISA instruction (class `Operand`). -/
structure Operand where
  location : List Char
  bank : Option ℤ
  immediate : Bool
deriving DecidableEq, Repr

/-- The packed `w_<res>_<stage>_<block>` parameter (class `WParam`). -/
structure WParam where
  residual : ℤ
  stage : ℤ
  block : ℤ
deriving DecidableEq, Repr

/-- A P-ISA instruction (class `PISAInstruction`).  All int members of the
C++ class are kept; members that the per-opcode constructors leave
uninitialized are modelled as the default value `0` (the prototype
constructors that differ — `Intt` sets `m_galois_element = 1`, `Copy` sets
`m_residual = 0` — are reflected in the parser model below). -/
structure Instr where
  name : List Char
  pmd : ℤ := 0
  inputs : List Operand := []
  outputs : List Operand := []
  residual : ℤ := 0
  wparam : WParam := ⟨0, 0, 0⟩
  galois : ℤ := 0
  groupId : ℤ := 0
  stage : ℤ := 0
  block : ℤ := 0
deriving DecidableEq, Repr

/-! ## Memory model (p_isa_memory_model.h, multiregister.h)

A `MultiRegister<uint32_t>` is a `List ℕ` of lane values; the register file
`m_registers` is an association list from names to registers (the
`std::unordered_map` iteration order is modelled as insertion order). -/

/-- The register file: name to multi-register map. -/
abbrev Registers := List (List Char × List ℕ)

/-- Association-list lookup with string keys, modelling reads of the
`std::unordered_map` / `std::map` containers of the source. -/
def alistLookup {β : Type} (l : List (List Char × β)) (k : List Char) : Option β :=
  match l with
  | [] => none
  | (n, v) :: rest => if n = k then some v else alistLookup rest k

/-- Update an existing entry in place, or append a new one (modelling
map `operator[]` followed by an assignment). -/
def alistSet {β : Type} (l : List (List Char × β)) (k : List Char) (v : β) :
    List (List Char × β) :=
  match l with
  | [] => [(k, v)]
  | (n, w) :: rest => if n = k then (n, v) :: rest else (n, w) :: alistSet rest k v

/-- Association-list lookup in the register file (`m_registers.count/[]`). -/
def regLookup (regs : Registers) (loc : List Char) : Option (List ℕ) :=
  alistLookup regs loc

/-- Register-file update (`m_registers[loc] = ...`). -/
def regSet (regs : Registers) (loc : List Char) (v : List ℕ) : Registers :=
  alistSet regs loc v

/-- `std::vector::resize`: truncate or zero-pad to length `w`
(`MultiRegister::resize`). -/
def resizeList (v : List ℕ) (w : ℕ) : List ℕ :=
  v.take w ++ List.replicate (w - v.length) 0

/-- `PISAMemoryModel::readMemory` (p_isa_memory_model.h lines 38-49): if the
name is absent a default-constructed `MultiRegister` — which has size 0 — is
inserted; a reference to the stored register is returned.  Result: updated
register file and the referenced value. -/
def readMemory (regs : Registers) (loc : List Char) : Registers × List ℕ :=
  match regLookup regs loc with
  | some v => (regs, v)
  | none => (regs ++ [(loc, [])], [])

/-- `PISAMemoryModel::writeMemory`: insert-if-absent then assign. -/
def writeMemory (regs : Registers) (loc : List Char) (v : List ℕ) : Registers :=
  regSet regs loc v

/-- `PISAMemoryModel::operator[]` (lines 69-81): insert-if-absent, then
resize the stored register to the configured width if its size differs.
Returns the updated file together with the referenced value. -/
def memIndex (w : ℕ) (regs : Registers) (loc : List Char) : Registers × List ℕ :=
  let v0 := (regLookup regs loc).getD []
  let v := if v0.length ≠ w then resizeList v0 w else v0
  (regSet regs loc v, v)

/-- `PISAMemoryModel::copy`: throws on an unallocated address. -/
def memCopy (regs : Registers) (loc : List Char) : Option (List ℕ) :=
  regLookup regs loc

/-- `m_multi_register_width` of `PISAFunctionalModel` (always 8192). -/
def multiRegisterWidth : ℕ := 8192

/-! ## Decimal rendering (std::to_string and stream insertion of integers) -/

/-- Fuel-driven core of the decimal rendering (structural recursion so
that concrete renderings reduce inside the kernel). -/
def natToCharsGo : ℕ → ℕ → List Char
  | 0, _ => []
  | fuel + 1, n =>
    if n < 10 then [Char.ofNat (48 + n)]
    else natToCharsGo fuel (n / 10) ++ [Char.ofNat (48 + n % 10)]

/-- Decimal digits of a natural number, most significant first, as
rendered by `std::to_string` / `operator<<`. -/
def natToChars (n : ℕ) : List Char := natToCharsGo (n + 1) n

/-- Decimal rendering of a C++ `int`. -/
def intToChars (n : ℤ) : List Char :=
  if n < 0 then '-' :: natToChars (-n).toNat else natToChars n.toNat

/-! ## Operand location splitting (p_isa_instruction.h, Operand::splitLocation) -/

/-- Whether index `i` is inside the search bound of
`std::string::rfind(ch, pos)` when called with the C++ `int` `pos`: a
negative `int` converts to a huge `size_t`, so the whole string is
searched. -/
def rfindInBound (pos : ℤ) (i : ℕ) : Bool :=
  decide ((i : ℤ) ≤ pos) || decide (pos < 0)

/-- `std::string::rfind(c, pos)`: the largest index `i ≤ pos` with
`s[i] = c` (every index when `pos` is negative), or `none` for `npos`. -/
def rfindChar (s : List Char) (c : Char) (pos : ℤ) : Option ℕ :=
  ((List.range s.length).filter
    (fun i => rfindInBound pos i && (s.getD i ' ' == c))).getLast?

/-- The `for (int x = 0; x < count; x++) size = reg_name.rfind('_', size) - 1`
loop of `Operand::splitLocation` (p_isa_instruction.h lines 195-211).  The
`none` (npos) branch — unreachable, because the loop runs once per
underscore — models the wrapped `int(npos - 1) = -2`. -/
def splitLoop (s : List Char) : ℕ → ℤ → ℤ
  | 0, size => size
  | x + 1, size =>
    match rfindChar s '_' size with
    | some p => splitLoop s x ((p : ℤ) - 1)
    | none => splitLoop s x (-2)

/-- `Operand::splitLocation`: count the underscores; if none, the root is
the whole location; otherwise run the rfind loop once per underscore and
split at the resulting index (`substr(0, size)` / `substr(size, ...)`). -/
def splitLocation (location : List Char) : List Char × List Char :=
  let count := location.count '_'
  if count = 0 then (location, [])
  else
    let size := splitLoop location count (location.length : ℤ) + 1
    (location.take size.toNat, location.drop size.toNat)

/-- The ascending list of positions of character `c` in `s` (used to reason
about `rfindChar` and `splitLoop`). -/
def charPositions (s : List Char) (c : Char) : List ℕ :=
  (List.range s.length).filter (fun i => s.getD i ' ' == c)

/-! ## Functional model (p_isa_functional_model.h) -/

/-- `std::vector` indexing by a C++ `int`: negative or out-of-range access
is undefined behaviour, modelled as `none`. -/
def vecGet? {α : Type} (l : List α) (i : ℤ) : Option α :=
  if i < 0 then none else l[i.toNat]?

/-- `uint32_t` subtraction `a - b` (wraps modulo `2 ^ 32`). -/
def u32sub (a b : ℕ) : ℕ := (a % 2 ^ 32 + 2 ^ 32 - b % 2 ^ 32) % 2 ^ 32

/-- One iteration of the bit-twiddling `while` loop of
`pisa::utility::reverseBits` (utility_functions.h) at `T = uint32_t`:
`mask ^= mask << s; i = ((i >> s) & mask) | ((i << s) & ~mask)`. -/
def revStep (p : ℕ × ℕ) (s : ℕ) : ℕ × ℕ :=
  let mask := (p.1 ^^^ (p.1 <<< s)) % 2 ^ 32
  (mask, ((p.2 >>> s) &&& mask) ||| ((p.2 <<< s) &&& (2 ^ 32 - 1 - mask)))

/-- The full 32-bit reversal computed by the loop of `reverseBits`
(shift amounts 16, 8, 4, 2, 1, starting from `mask = ~0`). -/
def reverse32 (i : ℕ) : ℕ :=
  ([16, 8, 4, 2, 1].foldl revStep (2 ^ 32 - 1, i % 2 ^ 32)).2

/-- `pisa::utility::reverseBits<uint32_t>(i, w)`: reverse all 32 bits, then
shift right by `32 - w`.  A shift amount outside `[0, 32)` is undefined
behaviour (`none`); in the source this happens only for degenerate `pmd`. -/
def reverseBits (i : ℕ) (w : ℤ) : Option ℕ :=
  if 1 ≤ w ∧ w ≤ 32 then some (reverse32 i >>> (32 - w).toNat) else none

/-- `PISAFunctionalModel::generate_bit_reverse_table`: pushes
`reverseBits (x, ln - 1)` for `x` in `[0, N)`. -/
def generateBitReverseTable (N : ℕ) (ln : ℤ) : Option (List ℕ) :=
  (List.range N).mapM (fun x => reverseBits x (ln - 1))

/-- `PISAFunctionalModel::createStartTable` (lines 695-738): the
concatenation, for `r = 0, 4, 2, 6, 1, 5, 3, 7` in this order, of the
arithmetic progressions `r, r + 8, r + 16, ...` truncated below
`increment`. -/
def createStartTable (increment : ℕ) : List ℕ :=
  [0, 4, 2, 6, 1, 5, 3, 7].flatMap
    (fun r => (List.range increment).filter (fun x => x % 8 == r))

/-- The mutable state of `PISAFunctionalModel<uint32_t>` that the embedded
operations touch: bit-reversal table, register file, modulus chain, the two
twiddle tables, and the NTT start table. -/
structure FunctionalModel where
  bit_reverse_table : List ℕ := []
  registers : Registers := []
  modulus_chain : List ℕ := []
  twiddle_ntt : List (List ℕ) := []
  twiddle_intt : List (List Char × List (List ℕ)) := []
  start_table : List ℕ := []
deriving DecidableEq, Repr

/-- `PISAFunctionalModel::addInstrDecodeExecute` (lines 361-378): bind the
three operand registers through `operator[]`, read the modulus, then set
each destination lane to `montgomeryAdd(src_1[x], src_2[x], modulus, true)`.
The `omp parallel for` lane loop reads the pre-loop register contents (lane
`x` only reads index `x` of the sources), so it is modelled as a map over
the lane indices. -/
def addInstrDecodeExecute (st : FunctionalModel) (i : Instr) : Option FunctionalModel :=
  match i.outputs[0]?, i.inputs[0]?, i.inputs[1]? with
  | some dstOp, some s1Op, some s2Op =>
    let p1 := memIndex multiRegisterWidth st.registers dstOp.location
    let p2 := memIndex multiRegisterWidth p1.1 s1Op.location
    let p3 := memIndex multiRegisterWidth p2.1 s2Op.location
    match vecGet? st.modulus_chain i.residual with
    | some q =>
      let dstVal := (List.range multiRegisterWidth).map fun x =>
        montgomeryAdd (p2.2.getD x 0) (p3.2.getD x 0) q true
      some { st with registers := regSet p3.1 dstOp.location dstVal }
    | none => none
  | _, _, _ => none

/-- `PISAFunctionalModel::copyInstrDecodeExecute` (lines 380-390):
whole-register assignment `dst = src_1`. -/
def copyInstrDecodeExecute (st : FunctionalModel) (i : Instr) : Option FunctionalModel :=
  match i.outputs[0]?, i.inputs[0]? with
  | some dstOp, some s1Op =>
    let p1 := memIndex multiRegisterWidth st.registers dstOp.location
    let p2 := memIndex multiRegisterWidth p1.1 s1Op.location
    some { st with registers := regSet p2.1 dstOp.location p2.2 }
  | _, _ => none

/-- `PISAFunctionalModel::subInstrDecodeExecute` (lines 392-413):
`z = modulus - src_2[x]` in `uint32_t`, reduced once if `z ≥ modulus`, then
`montgomeryAdd(src_1[x], z, modulus, true)`. -/
def subInstrDecodeExecute (st : FunctionalModel) (i : Instr) : Option FunctionalModel :=
  match i.outputs[0]?, i.inputs[0]?, i.inputs[1]? with
  | some dstOp, some s1Op, some s2Op =>
    let p1 := memIndex multiRegisterWidth st.registers dstOp.location
    let p2 := memIndex multiRegisterWidth p1.1 s1Op.location
    let p3 := memIndex multiRegisterWidth p2.1 s2Op.location
    match vecGet? st.modulus_chain i.residual with
    | some q =>
      let dstVal := (List.range multiRegisterWidth).map fun x =>
        let z := u32sub q (p3.2.getD x 0)
        let z := if q ≤ z then z - q else z
        montgomeryAdd (p2.2.getD x 0) z q true
      some { st with registers := regSet p3.1 dstOp.location dstVal }
    | none => none
  | _, _, _ => none

/-- `PISAFunctionalModel::mulInstrDecodeExecute` (lines 415-430). -/
def mulInstrDecodeExecute (st : FunctionalModel) (i : Instr) : Option FunctionalModel :=
  match i.outputs[0]?, i.inputs[0]?, i.inputs[1]? with
  | some dstOp, some s1Op, some s2Op =>
    let p1 := memIndex multiRegisterWidth st.registers dstOp.location
    let p2 := memIndex multiRegisterWidth p1.1 s1Op.location
    let p3 := memIndex multiRegisterWidth p2.1 s2Op.location
    match vecGet? st.modulus_chain i.residual with
    | some q =>
      let dstVal := (List.range multiRegisterWidth).map fun x =>
        montgomeryMul (p2.2.getD x 0) (p3.2.getD x 0) q true
      some { st with registers := regSet p3.1 dstOp.location dstVal }
    | none => none
  | _, _, _ => none

/-- `PISAFunctionalModel::muliInstrDecodeExecute` (lines 432-447): the
scalar is lane 0 of the register named by input operand 1. -/
def muliInstrDecodeExecute (st : FunctionalModel) (i : Instr) : Option FunctionalModel :=
  match i.outputs[0]?, i.inputs[0]?, i.inputs[1]? with
  | some dstOp, some s1Op, some immOp =>
    let p1 := memIndex multiRegisterWidth st.registers dstOp.location
    let p2 := memIndex multiRegisterWidth p1.1 s1Op.location
    let p3 := memIndex multiRegisterWidth p2.1 immOp.location
    let s := p3.2.getD 0 0
    match vecGet? st.modulus_chain i.residual with
    | some q =>
      let dstVal := (List.range multiRegisterWidth).map fun x =>
        montgomeryMul (p2.2.getD x 0) s q true
      some { st with registers := regSet p3.1 dstOp.location dstVal }
    | none => none
  | _, _, _ => none

/-- `PISAFunctionalModel::macInstrDecodeExecute` (lines 449-466):
`tmp = montgomeryMul(src_1[x], src_2[x], modulus, true)` followed by
`dst[x] = montgomeryAdd(accum[x], tmp, modulus, true)`. -/
def macInstrDecodeExecute (st : FunctionalModel) (i : Instr) : Option FunctionalModel :=
  match i.outputs[0]?, i.inputs[0]?, i.inputs[1]?, i.inputs[2]? with
  | some dstOp, some accOp, some s1Op, some s2Op =>
    let p1 := memIndex multiRegisterWidth st.registers dstOp.location
    let p2 := memIndex multiRegisterWidth p1.1 accOp.location
    let p3 := memIndex multiRegisterWidth p2.1 s1Op.location
    let p4 := memIndex multiRegisterWidth p3.1 s2Op.location
    match vecGet? st.modulus_chain i.residual with
    | some q =>
      let dstVal := (List.range multiRegisterWidth).map fun x =>
        montgomeryAdd (p2.2.getD x 0) (montgomeryMul (p3.2.getD x 0) (p4.2.getD x 0) q true) q true
      some { st with registers := regSet p4.1 dstOp.location dstVal }
    | none => none
  | _, _, _, _ => none

/-- `PISAFunctionalModel::maciInstrDecodeExecute` (lines 468-485). -/
def maciInstrDecodeExecute (st : FunctionalModel) (i : Instr) : Option FunctionalModel :=
  match i.outputs[0]?, i.inputs[0]?, i.inputs[1]?, i.inputs[2]? with
  | some dstOp, some accOp, some s1Op, some immOp =>
    let p1 := memIndex multiRegisterWidth st.registers dstOp.location
    let p2 := memIndex multiRegisterWidth p1.1 accOp.location
    let p3 := memIndex multiRegisterWidth p2.1 s1Op.location
    let p4 := memIndex multiRegisterWidth p3.1 immOp.location
    let s := p4.2.getD 0 0
    match vecGet? st.modulus_chain i.residual with
    | some q =>
      let dstVal := (List.range multiRegisterWidth).map fun x =>
        montgomeryAdd (p2.2.getD x 0) (montgomeryMul (p3.2.getD x 0) s q true) q true
      some { st with registers := regSet p4.1 dstOp.location dstVal }
    | none => none
  | _, _, _, _ => none

/-- One butterfly of `PISAFunctionalModel::nttInstrDecodeExecute`
(lines 597-630), updating the pair of destination registers at the computed
output lanes; fails on an out-of-range bit-reversal, twiddle or shift
access.  The destination registers are threaded as a pair (the source binds
`dst_0`/`dst_1` to distinct registers). -/
def nttButterflyStep (src1 src2 brt : List ℕ) (twRow : List ℕ) (q : ℕ)
    (lN stage : ℤ) (halfN blockSize halfBlock : ℕ)
    (acc : List ℕ × List ℕ) (ii : ℕ) : Option (List ℕ × List ℕ) := do
  let j ← brt[ii]?
  let in0 := 2 * j % blockSize
  let in1 := (2 * j + 1) % blockSize
  let out0 := j % halfBlock
  let out1 := (j + halfN) % halfBlock + halfBlock
  let sp := lN - 1 - stage
  if 0 ≤ sp ∧ sp < 32 then
    let k := j >>> sp.toNat <<< sp.toNat
    let xin0 := if in0 < halfBlock then src1.getD in0 0 else src2.getD (in0 - halfBlock) 0
    let xin1 := if in1 < halfBlock then src1.getD in1 0 else src2.getD (in1 - halfBlock) 0
    let t0 := xin0
    let t1 ← if stage = 0 then some xin1
             else do
               let w ← twRow[k]?
               some (montgomeryMul xin1 w q true)
    let t2 := u32sub q t1
    let v0 := montgomeryAdd t0 t1 q true
    let v1 := montgomeryAdd t0 t2 q true
    let acc := if out0 < halfBlock then (acc.1.set out0 v0, acc.2)
               else (acc.1, acc.2.set (out0 - halfBlock) v0)
    let acc := if out1 < halfBlock then (acc.1.set out1 v1, acc.2)
               else (acc.1, acc.2.set (out1 - halfBlock) v1)
    some acc
  else none

/-- `PISAFunctionalModel::nttInstrDecodeExecute` (lines 560-643).
`N = pow(2, lN)` truncates to 0 for negative `lN`; `increment =
pow(2, lN - 14)` likewise; an `increment` of 0 makes the C++ loop diverge
(modelled as `none`), and a negative `block` makes the start-table lookup
undefined.  The start and bit-reversal tables are generated only when the
stored ones are empty and are kept in the post-state. -/
def nttInstrDecodeExecute (st : FunctionalModel) (i : Instr) : Option FunctionalModel :=
  match i.outputs[0]?, i.outputs[1]?, i.inputs[0]?, i.inputs[1]? with
  | some d0Op, some d1Op, some s1Op, some s2Op =>
    let p1 := memIndex multiRegisterWidth st.registers d0Op.location
    let p2 := memIndex multiRegisterWidth p1.1 d1Op.location
    let p3 := memIndex multiRegisterWidth p2.1 s1Op.location
    let p4 := memIndex multiRegisterWidth p3.1 s2Op.location
    let lN := i.pmd
    let N := if lN < 0 then 0 else 2 ^ lN.toNat
    let halfN := N / 2
    let blockSize := p3.2.length * 2
    let halfBlock := p3.2.length
    let increment := if lN - 14 < 0 then 0 else 2 ^ (lN - 14).toNat
    let startTable := if st.start_table.length = 0 then createStartTable increment
                      else st.start_table
    do
    let start ← vecGet? startTable i.wparam.block
    let q ← vecGet? st.modulus_chain (i.wparam.residual : ℤ)
    let twRow ← vecGet? st.twiddle_ntt i.wparam.residual
    let brt ← if st.bit_reverse_table.length = 0 then generateBitReverseTable N lN
              else some st.bit_reverse_table
    if increment = 0 ∧ start < halfN then none
    else
      let count := if start < halfN then (halfN - start + increment - 1) / increment else 0
      let idxs := List.range' start count increment
      let final ← idxs.foldlM
        (nttButterflyStep p3.2 p4.2 brt twRow q lN i.wparam.stage halfN blockSize halfBlock)
        (p1.2, p2.2)
      some { st with
        registers := regSet (regSet p4.1 d0Op.location final.1) d1Op.location final.2,
        bit_reverse_table := brt,
        start_table := startTable }
  | _, _, _, _ => none

/-- One butterfly of `PISAFunctionalModel::iNttInstrDecodeExecute`
(lines 520-545); the input lanes are driven by the loop index and the
output lanes by `2 i` / `2 i + 1`, and the twiddle factor always
multiplies. -/
def inttButterflyStep (src1 src2 brt : List ℕ) (twRow : List ℕ) (q : ℕ)
    (lN stage : ℤ) (halfN blockSize halfBlock : ℕ)
    (acc : List ℕ × List ℕ) (ii : ℕ) : Option (List ℕ × List ℕ) := do
  let j ← brt[ii]?
  let in0 := ii % halfBlock
  let in1 := (ii + halfN) % halfBlock + halfBlock
  let out0 := 2 * ii % blockSize
  let out1 := (2 * ii + 1) % blockSize
  let sp := lN - 1 - stage
  if 0 ≤ sp ∧ sp < 32 then
    let k := j >>> sp.toNat <<< sp.toNat
    let xin0 := if in0 < halfBlock then src1.getD in0 0 else src2.getD (in0 - halfBlock) 0
    let xin1 := if in1 < halfBlock then src1.getD in1 0 else src2.getD (in1 - halfBlock) 0
    let t0 := xin0
    let w ← twRow[k]?
    let t1 := montgomeryMul xin1 w q true
    let t2 := u32sub q t1
    let v0 := montgomeryAdd t0 t1 q true
    let v1 := montgomeryAdd t0 t2 q true
    let acc := if out0 < halfBlock then (acc.1.set out0 v0, acc.2)
               else (acc.1, acc.2.set (out0 - halfBlock) v0)
    let acc := if out1 < halfBlock then (acc.1.set out1 v1, acc.2)
               else (acc.1, acc.2.set (out1 - halfBlock) v1)
    some acc
  else none

/-- `PISAFunctionalModel::iNttInstrDecodeExecute` (lines 487-558).
`ge = to_string(galois_element)` selects the iNTT twiddle table;
`slice_size = half_N / increment` divides by zero when `lN < 15`
(modelled as `none`), and the loop runs over
`[block * slice_size, (block + 1) * slice_size)`. -/
def iNttInstrDecodeExecute (st : FunctionalModel) (i : Instr) : Option FunctionalModel :=
  match i.outputs[0]?, i.outputs[1]?, i.inputs[0]?, i.inputs[1]? with
  | some d0Op, some d1Op, some s1Op, some s2Op =>
    let p1 := memIndex multiRegisterWidth st.registers d0Op.location
    let p2 := memIndex multiRegisterWidth p1.1 d1Op.location
    let p3 := memIndex multiRegisterWidth p2.1 s1Op.location
    let p4 := memIndex multiRegisterWidth p3.1 s2Op.location
    let lN := i.pmd
    let N := if lN < 0 then 0 else 2 ^ lN.toNat
    let halfN := N / 2
    let blockSize := p3.2.length * 2
    let halfBlock := p3.2.length
    let ge := intToChars i.galois
    let increment := if lN - 14 < 0 then 0 else 2 ^ (lN - 14).toNat
    do
    let q ← vecGet? st.modulus_chain (i.wparam.residual : ℤ)
    let inttTables ← alistLookup st.twiddle_intt ge
    let twRow ← vecGet? inttTables i.wparam.residual
    if increment = 0 ∨ i.wparam.block < 0 then none
    else
      let sliceSize := halfN / increment
      let start := i.wparam.block.toNat * sliceSize
      let brt ← if st.bit_reverse_table.length = 0 then generateBitReverseTable N lN
                else some st.bit_reverse_table
      let idxs := List.range' start sliceSize 1
      let final ← idxs.foldlM
        (inttButterflyStep p3.2 p4.2 brt twRow q lN i.wparam.stage halfN blockSize halfBlock)
        (p1.2, p2.2)
      some { st with
        registers := regSet (regSet p4.1 d0Op.location final.1) d1Op.location final.2,
        bit_reverse_table := brt }
  | _, _, _, _ => none

/-- `PISAFunctionalModel::decode` (lines 210-288) with execution tracing
disabled (`m_trace_execution` defaults to `false`): dispatch on the
instruction name; an unknown opcode throws. -/
def decode (st : FunctionalModel) (i : Instr) : Option FunctionalModel :=
  if i.name = "add".toList then addInstrDecodeExecute st i
  else if i.name = "sub".toList then subInstrDecodeExecute st i
  else if i.name = "mul".toList then mulInstrDecodeExecute st i
  else if i.name = "muli".toList then muliInstrDecodeExecute st i
  else if i.name = "mac".toList then macInstrDecodeExecute st i
  else if i.name = "maci".toList then maciInstrDecodeExecute st i
  else if i.name = "intt".toList then iNttInstrDecodeExecute st i
  else if i.name = "ntt".toList then nttInstrDecodeExecute st i
  else if i.name = "copy".toList then copyInstrDecodeExecute st i
  else none

/-! ## Decimal parsing (std::stoi) -/

/-- Whether a character is a decimal digit. -/
def isDigitChar (c : Char) : Bool := decide ('0' ≤ c ∧ c ≤ '9')

/-- Value of a digit string, most significant first. -/
def digitsVal (s : List Char) : ℕ :=
  s.foldl (fun acc c => acc * 10 + (c.toNat - 48)) 0

/-- Parse the longest digit prefix; `std::stoi` throws when it is empty. -/
def parseDigits (s : List Char) : Option ℕ :=
  let ds := s.takeWhile isDigitChar
  if ds = [] then none else some (digitsVal ds)

/-- `std::stoi`: skip leading spaces, optional sign, then a nonempty run
of digits; trailing non-digits are ignored.  (Overflow, which also throws,
is not modelled: the embedded integers are unbounded.) -/
def stoiInt (s : List Char) : Option ℤ :=
  match s.dropWhile (fun ch => ch == ' ') with
  | '-' :: rest => (parseDigits rest).map (fun n => -(n : ℤ))
  | '+' :: rest => (parseDigits rest).map (fun n => (n : ℤ))
  | rest => (parseDigits rest).map (fun n => (n : ℤ))

/-! ## Runtime parameter-memory mapping (pisaprogramruntime.h,
p_isa_functional_model.h getMatching3ParamRegisterNames) -/

/-- The prefix before the last underscore of a register name
(`reg_name.substr(0, reg_name.rfind('_', reg_name.size()))` in
`getMatching3ParamRegisterNames`); when there is no underscore, `rfind`
returns `npos`, `int(npos) = -1` becomes a huge `size_t` count, and
`substr` yields the whole name. -/
def shortNameOf (reg : List Char) : List Char :=
  match rfindChar reg '_' (reg.length : ℤ) with
  | some p => reg.take p
  | none => reg

/-- `PISAFunctionalModel::getMatching3ParamRegisterNames` (lines 657-674):
the names of the resident registers whose prefix before the last
underscore equals the given 2-param name. -/
def getMatching3ParamRegisterNames (st : FunctionalModel) (root : List Char) :
    List (List Char) :=
  (st.registers.map Prod.fst).filter (fun n => shortNameOf n = root)

/-- One insertion step of the sort used to model `std::sort` with the
comparator `lhs.second < rhs.second`. -/
def insertByKey (p : List Char × ℤ) :
    List (List Char × ℤ) → List (List Char × ℤ)
  | [] => [p]
  | q :: rest => if p.2 < q.2 then p :: q :: rest else q :: insertByKey p rest

/-- Sorting the `(name, index)` list ascending by index (the indices are
distinct in every reachable state, so any comparison sort agrees with
this insertion sort). -/
def sortByKey (l : List (List Char × ℤ)) : List (List Char × ℤ) :=
  l.foldr insertByKey []

/-- `PISAProgramRuntime::getParamMemoryFromMultiRegisterDeviceMemory`
(pisaprogramruntime.h lines 233-272): match the resident `root_<n>` names,
parse the numeric suffix after `root_`, sort ascending, and concatenate
the register contents read through `readMemory`.  A failing `stoi` or an
out-of-range `substr` start is an exception (`none`). -/
def getParamMemory (st : FunctionalModel) (root : List Char) : Option (List ℕ) :=
  ((getMatching3ParamRegisterNames st root).mapM (fun a =>
    if root.length + 1 ≤ a.length then
      (stoiInt (a.drop (root.length + 1))).map (fun idx => (a, idx))
    else none)).map (fun indexed =>
      ((sortByKey indexed).foldl (fun (acc : Registers × List ℕ) p =>
        let r := readMemory acc.1 p.1
        (r.1, acc.2 ++ r.2)) (st.registers, [])).2)

/-- `PISAProgramRuntime::setParamMemoryToMultiRegisterDeviceMemory`
(pisaprogramruntime.h lines 161-187): fatal unless the flat length is a
multiple of the register width; otherwise write slice `x` to the register
named `root_<x>`. -/
def setParamMemory (st : FunctionalModel) (root : List Char) (v : List ℕ) :
    Option FunctionalModel :=
  if v.length % multiRegisterWidth ≠ 0 then none
  else
    some { st with registers :=
      (List.range (v.length / multiRegisterWidth)).foldl (fun regs x =>
        writeMemory regs (root ++ '_' :: natToChars x)
          ((List.range multiRegisterWidth).map
            (fun a => v.getD (multiRegisterWidth * x + a) 0))) st.registers }

/-! ## Memory dump and restore (p_isa_functional_model.h lines 752-888)

The CSV stream is modelled at the granularity the code itself uses: a list
of lines, each a list of comma-separated fields (the dumped fields — tags,
identifiers and decimal numbers — contain no commas or newlines). -/

/-- Conversion of a parsed `int` to the stored lane type `uint32_t`. -/
def intToU32 (z : ℤ) : ℕ := (z % 2 ^ 32).toNat

/-- `PISAFunctionalModel::dumpMemoryToStream` (lines 752-799): `ntt` lines
(one per residual), `intt` lines (one per Galois element and residual),
the `modulus_chain` line, then one `memory` line per register. -/
def dumpMemoryToStream (st : FunctionalModel) : List (List (List Char)) :=
  st.twiddle_ntt.enum.map
    (fun p => "ntt".toList :: natToChars p.1 :: p.2.map natToChars)
  ++ st.twiddle_intt.flatMap (fun gt =>
      gt.2.enum.map
        (fun p => "intt".toList :: gt.1 :: natToChars p.1 :: p.2.map natToChars))
  ++ ["modulus_chain".toList :: st.modulus_chain.map natToChars]
  ++ st.registers.map (fun r => "memory".toList :: r.1 :: r.2.map natToChars)

/-- One line of `PISAFunctionalModel::readMemoryFromStream` (lines 817-888).
Empty and carriage-return fields are dropped; the four tag branches follow
the source: `memory` stores the parsed values into the named register;
`modulus_chain` replaces the chain; `ntt` resizes to `stoi(components[1])`
when the table is shorter — one short, so the subsequent
`m_twiddle_ntt[idx] = values` is an out-of-range write (`none`) unless
`idx` was already in range; `intt` default-inserts the Galois key, then
assigns the parsed row into a LOCAL COPY (`auto intt_values = ...`) with
the same off-by-one resize, so the row is never stored back.  A failed
`stoi` throws (`none`); an unknown tag is skipped. -/
def readMemoryLine (st : FunctionalModel) (line : List (List Char)) :
    Option FunctionalModel :=
  let components := line.filter
    (fun comp => !(comp == "\r".toList) && !(comp == []))
  match components with
  | [] => none
  | c0 :: rest =>
    if c0 = "memory".toList then
      match rest with
      | name :: vals =>
        (vals.mapM stoiInt).map (fun values =>
          { st with registers := regSet st.registers name (values.map intToU32) })
      | [] => none
    else if c0 = "modulus_chain".toList then
      (rest.mapM stoiInt).map (fun values =>
        { st with modulus_chain := values.map intToU32 })
    else if c0 = "ntt".toList then
      match rest with
      | idxs :: vals =>
        (stoiInt idxs).bind (fun idx =>
          (vals.mapM stoiInt).bind (fun values =>
            if 0 ≤ idx ∧ idx.toNat < st.twiddle_ntt.length then
              some { st with twiddle_ntt :=
                st.twiddle_ntt.set idx.toNat (values.map intToU32) }
            else none))
      | [] => none
    else if c0 = "intt".toList then
      match rest with
      | ge :: idxs :: vals =>
        let ensured := match alistLookup st.twiddle_intt ge with
          | some _ => st.twiddle_intt
          | none => alistSet st.twiddle_intt ge []
        let cpy := (alistLookup ensured ge).getD []
        (stoiInt idxs).bind (fun idx =>
          (vals.mapM stoiInt).bind (fun _values =>
            if 0 ≤ idx ∧ idx.toNat < cpy.length then
              some { st with twiddle_intt := ensured }
            else none))
      | _ => none
    else some st

/-- `PISAFunctionalModel::readMemoryFromStream`: process the lines in
order, threading the model state. -/
def readMemoryFromStream (st : FunctionalModel) (lines : List (List (List Char))) :
    Option FunctionalModel :=
  lines.foldlM readMemoryLine st

/-! ## Instruction CSV text (claim C4): printing (`operator<<` of
`PISAInstruction`, p_isa_instruction.h lines 255-317) and parsing
(`PISAParser`, p_isa_parser.cpp) -/

/-- The `PARAM_TYPE` enum of p_isa_instruction.h. -/
inductive ParamType where
  | OP_NAME
  | INPUT_OPERAND
  | OUTPUT_OPERAND
  | INPUT_OUTPUT_OPERAND
  | POLYMOD_DEG_LOG2
  | RESIDUAL
  | W_PACKED_PARAM
  | IMMEDIATE
  | GROUP_ID
  | STAGE
  | BLOCK
  | GALOIS_ELEMENT
  | ADDITIONAL_PARAMS
deriving DecidableEq, Repr

/-- `description_Add` (p_isa_instructions.h). -/
def description_Add : List ParamType :=
  [.POLYMOD_DEG_LOG2, .OP_NAME, .OUTPUT_OPERAND, .INPUT_OPERAND, .INPUT_OPERAND, .RESIDUAL]

/-- `description_Sub`. -/
def description_Sub : List ParamType :=
  [.POLYMOD_DEG_LOG2, .OP_NAME, .OUTPUT_OPERAND, .INPUT_OPERAND, .INPUT_OPERAND, .RESIDUAL]

/-- `description_Mul`. -/
def description_Mul : List ParamType :=
  [.POLYMOD_DEG_LOG2, .OP_NAME, .OUTPUT_OPERAND, .INPUT_OPERAND, .INPUT_OPERAND, .RESIDUAL]

/-- `description_Mac`. -/
def description_Mac : List ParamType :=
  [.POLYMOD_DEG_LOG2, .OP_NAME, .INPUT_OUTPUT_OPERAND, .INPUT_OPERAND, .INPUT_OPERAND, .RESIDUAL]

/-- `description_Maci`. -/
def description_Maci : List ParamType :=
  [.POLYMOD_DEG_LOG2, .OP_NAME, .INPUT_OUTPUT_OPERAND, .INPUT_OPERAND, .IMMEDIATE, .RESIDUAL]

/-- `description_Intt`. -/
def description_Intt : List ParamType :=
  [.POLYMOD_DEG_LOG2, .OP_NAME, .OUTPUT_OPERAND, .OUTPUT_OPERAND, .INPUT_OPERAND,
   .INPUT_OPERAND, .W_PACKED_PARAM, .RESIDUAL, .GALOIS_ELEMENT]

/-- `description_Ntt`. -/
def description_Ntt : List ParamType :=
  [.POLYMOD_DEG_LOG2, .OP_NAME, .OUTPUT_OPERAND, .OUTPUT_OPERAND, .INPUT_OPERAND,
   .INPUT_OPERAND, .W_PACKED_PARAM, .RESIDUAL]

/-- `description_Muli`. -/
def description_Muli : List ParamType :=
  [.POLYMOD_DEG_LOG2, .OP_NAME, .OUTPUT_OPERAND, .INPUT_OPERAND, .IMMEDIATE, .RESIDUAL]

/-- `description_Copy`. -/
def description_Copy : List ParamType :=
  [.POLYMOD_DEG_LOG2, .OP_NAME, .OUTPUT_OPERAND, .INPUT_OPERAND]

/-- `InstructionMap.at(operation)->create()` (p_isa.h lines 15-25): the
per-opcode descriptor together with a freshly default-constructed
instruction.  `Intt()` sets `m_galois_element = 1` and `Copy()` sets
`m_residual = 0`; all other int members are left uninitialized by the
default constructors and take the modelled default `0`.  A name outside
the map throws `std::out_of_range` (`none`). -/
def instructionMapLookup (nm : List Char) : Option (List ParamType × Instr) :=
  if nm = "add".toList then some (description_Add, { name := "add".toList })
  else if nm = "sub".toList then some (description_Sub, { name := "sub".toList })
  else if nm = "mul".toList then some (description_Mul, { name := "mul".toList })
  else if nm = "mac".toList then some (description_Mac, { name := "mac".toList })
  else if nm = "maci".toList then some (description_Maci, { name := "maci".toList })
  else if nm = "intt".toList then some (description_Intt, { name := "intt".toList, galois := 1 })
  else if nm = "ntt".toList then some (description_Ntt, { name := "ntt".toList })
  else if nm = "muli".toList then some (description_Muli, { name := "muli".toList })
  else if nm = "copy".toList then some (description_Copy, { name := "copy".toList, residual := 0 })
  else none

/-- `whiteSpaceRemoved` (common/string.h lines 10-16): erase every `' '`. -/
def whiteSpaceRemoved (s : List Char) : List Char :=
  s.filter (fun c => !(c == ' '))

/-- The first space-delimited token extracted by `istringstream >> word`:
skip spaces, then read until the next space. -/
def firstWord (s : List Char) : List Char :=
  (s.dropWhile (fun c => c == ' ')).takeWhile (fun c => !(c == ' '))

/-- The remainder of the stream after `istringstream >> word`. -/
def afterFirstWord (s : List Char) : List Char :=
  (s.dropWhile (fun c => c == ' ')).dropWhile (fun c => !(c == ' '))

/-- `Operand(const std::string &location_and_bank)` (p_isa_instruction.h
lines 129-145): `splitter >> location >> bank`; `setLocation(location)`
stores `root + index` from `splitLocation`; when the bank token is longer
than 2 characters its middle `substr(1, size-2)` goes through `std::stoi`
(a throw propagates: `none`), otherwise `m_bank` is never written
(`none` bank); `m_immediate` is set to `false`. -/
def operandOfToken (tok : List Char) : Option Operand :=
  let w := firstWord tok
  let location := (splitLocation w).1 ++ (splitLocation w).2
  let bank := firstWord (afterFirstWord tok)
  if 2 < bank.length then
    (stoiInt ((bank.drop 1).take (bank.length - 2))).map
      (fun b => { location := location, bank := some b, immediate := false })
  else some { location := location, bank := none, immediate := false }

/-- `WParam(const std::string &w_param)` (p_isa_instruction.h lines 62-80):
four `getline` calls with delimiter `'_'` — the preamble is discarded, the
residual and stage are the next two fields, and the block is the entire
remainder; each field goes through `stoi` (`none` on a throw). -/
def wparamOfToken (s : List Char) : Option WParam :=
  let r1 := (s.dropWhile (fun c => !(c == '_'))).drop 1
  let t2 := r1.takeWhile (fun c => !(c == '_'))
  let r2 := (r1.dropWhile (fun c => !(c == '_'))).drop 1
  let t3 := r2.takeWhile (fun c => !(c == '_'))
  let r3 := (r2.dropWhile (fun c => !(c == '_'))).drop 1
  (stoiInt t2).bind (fun res =>
    (stoiInt t3).bind (fun stg =>
      (stoiInt r3).map (fun blk => ({ residual := res, stage := stg, block := blk } : WParam))))

/-- `PISAParser::parseComponent` (p_isa_parser.cpp lines 78-125) together
with the `parse_*` helpers (lines 127-193): one descriptor slot applied to
the instruction under construction.  `parse_IMMEDIATE` builds
`Operand(trimmed, true)`, whose constructor stores the location directly
and never writes the bank; `parse_ADDITIONAL_PARAMS` throws (`none`). -/
def parseComponent (component : List Char) (t : ParamType) (i : Instr) : Option Instr :=
  match t with
  | .GROUP_ID => (stoiInt component).map (fun z => { i with groupId := z })
  | .STAGE => (stoiInt component).map (fun z => { i with stage := z })
  | .BLOCK => (stoiInt component).map (fun z => { i with block := z })
  | .IMMEDIATE =>
      some { i with inputs := i.inputs ++
        [{ location := whiteSpaceRemoved component, bank := none, immediate := true }] }
  | .W_PACKED_PARAM => (wparamOfToken component).map (fun w => { i with wparam := w })
  | .INPUT_OUTPUT_OPERAND =>
      (operandOfToken component).map (fun op =>
        { i with inputs := i.inputs ++ [op], outputs := i.outputs ++ [op] })
  | .OP_NAME => some { i with name := whiteSpaceRemoved component }
  | .INPUT_OPERAND =>
      (operandOfToken component).map (fun op => { i with inputs := i.inputs ++ [op] })
  | .OUTPUT_OPERAND =>
      (operandOfToken component).map (fun op => { i with outputs := i.outputs ++ [op] })
  | .POLYMOD_DEG_LOG2 => (stoiInt component).map (fun z => { i with pmd := z })
  | .RESIDUAL => (stoiInt component).map (fun z => { i with residual := z })
  | .GALOIS_ELEMENT => (stoiInt component).map (fun z => { i with galois := z })
  | .ADDITIONAL_PARAMS => none

/-- `PISAParser::parseInstruction` (p_isa_parser.cpp lines 51-77): the
opcode is `whiteSpaceRemoved(components[1])` (`OP_CODE_LOCATION = 1`, an
out-of-range `vector` read for shorter lines: `none`); the loop feeds
component `x` through descriptor slot `params[x]`, so a line with more
components than descriptor slots reads `params` out of range (`none`). -/
def parseInstruction (components : List (List Char)) : Option Instr :=
  (components[1]?).bind (fun opRaw =>
    (instructionMapLookup (whiteSpaceRemoved opRaw)).bind (fun pr =>
      if components.length ≤ pr.1.length then
        (components.zip pr.1).foldlM (fun i p => parseComponent p.1 p.2 i) pr.2
      else none))

/-- Splitting one CSV line with `while (std::getline(ss, component, ','))`
(p_isa_parser.cpp lines 27-34): an empty line yields no components and a
trailing comma yields no empty final component. -/
def cppSplit (s : List Char) (d : Char) : List (List Char) :=
  match s with
  | [] => []
  | c :: rest =>
    if c == d then [] :: cppSplit rest d
    else
      match cppSplit rest d with
      | [] => [[c]]
      | t :: ts => (c :: t) :: ts

/-- One line of `PISAParser::parse` (p_isa_parser.cpp lines 24-35): split
on commas, then parse the component list. -/
def parseLine (line : List Char) : Option Instr :=
  parseInstruction (cppSplit line ',')

/-- Junk value standing for the undefined behaviour of an out-of-range
`m_input_operands[n]` / `m_output_operands[n]` read while printing (never
reached for an instruction that fills its descriptor). -/
def defaultOperand : Operand := { location := [], bank := none, immediate := false }

/-- Stream insertion of an `Operand` (p_isa_instruction.h lines 169-177)
as reached from `operator<<` of `PISAInstruction`: the printing loop gets
each operand through `getInputOperand`/`getOutputOperand`
(p_isa_instruction.cpp lines 18-28), which overwrite the operand's
`m_output_bank` with the instruction's `m_output_block` — a member no
constructor or parse path ever initializes, so whether the bank is printed
is decided by an indeterminate read.  That read is the explicit parameter
`ob` here: every theorem about printing states which resolution it is
about.  When the bank prints although `m_bank` was never written (bank
`none`), the emitted digits are themselves indeterminate, modelled by the
junk value `0` (unreachable from parser-produced operands, whose banks are
`some` whenever they print). -/
def printOperand (ob : Bool) (op : Operand) : List Char :=
  op.location ++
    (if !op.immediate && ob then ' ' :: '(' :: (intToChars (op.bank.getD 0) ++ [')'])
     else [])

/-- The descriptor loop of `operator<<` for `PISAInstruction`
(p_isa_instruction.h lines 255-317), producing the printed field of each
descriptor slot in order; `ob` is the indeterminate `m_output_block` value
copied into every operand before it is printed; `input_count` and
`output_count` advance exactly as in the source (`GALOIS_ELEMENT` also
advances `input_count`, and `ADDITIONAL_PARAMS` prints nothing but still
counts as an element). -/
def printSlots (ob : Bool) (i : Instr) : List ParamType → ℕ → ℕ → List (List Char)
  | [], _, _ => []
  | t :: rest, ic, oc =>
    match t with
    | .GROUP_ID => (intToChars i.groupId ++ [' ']) :: printSlots ob i rest ic oc
    | .STAGE => (intToChars i.stage ++ [' ']) :: printSlots ob i rest ic oc
    | .BLOCK => (intToChars i.block ++ [' ']) :: printSlots ob i rest ic oc
    | .OP_NAME => (i.name ++ [' ']) :: printSlots ob i rest ic oc
    | .INPUT_OPERAND =>
        printOperand ob (i.inputs.getD ic defaultOperand) :: printSlots ob i rest (ic + 1) oc
    | .OUTPUT_OPERAND =>
        printOperand ob (i.outputs.getD oc defaultOperand) :: printSlots ob i rest ic (oc + 1)
    | .INPUT_OUTPUT_OPERAND =>
        printOperand ob (i.outputs.getD oc defaultOperand)
          :: printSlots ob i rest (ic + 1) (oc + 1)
    | .POLYMOD_DEG_LOG2 => intToChars i.pmd :: printSlots ob i rest ic oc
    | .RESIDUAL => intToChars i.residual :: printSlots ob i rest ic oc
    | .W_PACKED_PARAM =>
        ('w' :: '_' :: (intToChars i.wparam.residual ++
          '_' :: (intToChars i.wparam.stage ++ '_' :: intToChars i.wparam.block)))
          :: printSlots ob i rest ic oc
    | .IMMEDIATE =>
        printOperand ob (i.inputs.getD ic defaultOperand) :: printSlots ob i rest (ic + 1) oc
    | .GALOIS_ELEMENT => intToChars i.galois :: printSlots ob i rest (ic + 1) oc
    | .ADDITIONAL_PARAMS => [] :: printSlots ob i rest ic oc

/-- `if (element != 0) stream << ", ";` — the printed fields joined with
`", "` before every element but the first. -/
def sepJoin : List (List Char) → List Char
  | [] => []
  | [f] => f
  | f :: g :: rest => f ++ ',' :: ' ' :: sepJoin (g :: rest)

/-- `operator<<(stream, PISAInstruction)`: the descriptor slots joined
with `", "`, with `ob` the resolution of the uninitialized
`m_output_block` read that gates bank printing.  The source iterates the
instruction's stored `m_description`, which `create()` copies from the
per-opcode prototype, so the descriptor is recovered here from the opcode
map (an instruction whose name is not in the map prints as an empty
line). -/
def printInstr (ob : Bool) (i : Instr) : List Char :=
  match instructionMapLookup i.name with
  | some pr => sepJoin (printSlots ob i pr.1 0 0)
  | none => []

/-- `Add/Sub/Mul(poly_mod, output_op, input_op0, input_op1, residual)`
(p_isa_instructions.h): the three binary arithmetic constructors share
one shape. -/
def mkArith (nm : List Char) (pmd : ℤ) (dst s1 s2 : Operand) (res : ℤ) : Instr :=
  { name := nm, pmd := pmd, outputs := [dst], inputs := [s1, s2], residual := res }

/-- `Mac(poly_mod, input_output_op, input_op0, input_op1, residual)`: the
accumulator is added to both operand lists. -/
def mkMac (pmd : ℤ) (acc s1 s2 : Operand) (res : ℤ) : Instr :=
  { name := "mac".toList, pmd := pmd, outputs := [acc], inputs := [acc, s1, s2],
    residual := res }

/-- `Maci(poly_mod, input_output_op, input_op0, input_op1, residual)`: the
last input is forced immediate by `setImmediate(true)`. -/
def mkMaci (pmd : ℤ) (acc s1 imm : Operand) (res : ℤ) : Instr :=
  { name := "maci".toList, pmd := pmd, outputs := [acc],
    inputs := [acc, s1, { imm with immediate := true }], residual := res }

/-- `Muli(poly_mod, output_op, input_op0, input_op1, residual)`: the last
input is forced immediate. -/
def mkMuli (pmd : ℤ) (dst s1 imm : Operand) (res : ℤ) : Instr :=
  { name := "muli".toList, pmd := pmd, outputs := [dst],
    inputs := [s1, { imm with immediate := true }], residual := res }

/-- `Ntt(poly_mod, output_op0, output_op1, input_op0, input_op1, w_param,
residual)`. -/
def mkNtt (pmd : ℤ) (d0 d1 s0 s1 : Operand) (w : WParam) (res : ℤ) : Instr :=
  { name := "ntt".toList, pmd := pmd, outputs := [d0, d1], inputs := [s0, s1],
    wparam := w, residual := res }

/-- `Intt(poly_mod, output_op0, output_op1, input_op0, input_op1, w_param,
residual, galois_element)`; the `Intt()` base sets galois to 1 and the
constructor then overwrites it with the argument. -/
def mkIntt (pmd : ℤ) (d0 d1 s0 s1 : Operand) (w : WParam) (res g : ℤ) : Instr :=
  { name := "intt".toList, pmd := pmd, outputs := [d0, d1], inputs := [s0, s1],
    wparam := w, residual := res, galois := g }

/-- `Copy(poly_mod, output_op, input_op0)`; `Copy()` fixes the residual
to 0. -/
def mkCopy (pmd : ℤ) (dst src : Operand) : Instr :=
  { name := "copy".toList, pmd := pmd, outputs := [dst], inputs := [src], residual := 0 }

/-- A printable register location: nonempty and free of the CSV comma and
of the space that separates the location and bank tokens. -/
def goodLoc (s : List Char) : Prop :=
  s ≠ [] ∧ ∀ c ∈ s, ¬(c = ',') ∧ ¬(c = ' ')

instance (s : List Char) : Decidable (goodLoc s) := by
  unfold goodLoc; infer_instance

/-- A register operand with every descriptor field populated: printable
location, explicitly assigned bank, not immediate. -/
def goodReg (op : Operand) : Prop :=
  goodLoc op.location ∧ op.immediate = false ∧ op.bank ≠ none

instance (op : Operand) : Decidable (goodReg op) := by
  unfold goodReg; infer_instance

/-- An instruction of one of the nine public opcodes, built by the
corresponding public constructor from printable operands, with every
descriptor field populated (an immediate operand's descriptor slot has no
bank, so its bank is the never-written `none`). -/
def WellFormedInstr (I : Instr) : Prop :=
  (∃ pmd dst s1 s2 res, goodReg dst ∧ goodReg s1 ∧ goodReg s2 ∧
    (I = mkArith ("add".toList) pmd dst s1 s2 res ∨
     I = mkArith ("sub".toList) pmd dst s1 s2 res ∨
     I = mkArith ("mul".toList) pmd dst s1 s2 res)) ∨
  (∃ pmd acc s1 s2 res, goodReg acc ∧ goodReg s1 ∧ goodReg s2 ∧
    I = mkMac pmd acc s1 s2 res) ∨
  (∃ pmd acc s1 imm res, goodReg acc ∧ goodReg s1 ∧
    goodLoc imm.location ∧ imm.bank = none ∧ I = mkMaci pmd acc s1 imm res) ∨
  (∃ pmd dst s1 imm res, goodReg dst ∧ goodReg s1 ∧
    goodLoc imm.location ∧ imm.bank = none ∧ I = mkMuli pmd dst s1 imm res) ∨
  (∃ pmd d0 d1 s0 s1 w res, goodReg d0 ∧ goodReg d1 ∧ goodReg s0 ∧ goodReg s1 ∧
    I = mkNtt pmd d0 d1 s0 s1 w res) ∨
  (∃ pmd d0 d1 s0 s1 w res g, goodReg d0 ∧ goodReg d1 ∧ goodReg s0 ∧ goodReg s1 ∧
    I = mkIntt pmd d0 d1 s0 s1 w res g) ∨
  (∃ pmd dst src, goodReg dst ∧ goodReg src ∧ I = mkCopy pmd dst src)

/-- The instruction parsed from the S5 scenario line
`13, add, r_0_1 (2), r_0_2 (0), r_0_3 (0), 0`. -/
def c4S5Instr : Instr :=
  mkArith ("add".toList) 13
    { location := "r_0_1".toList, bank := some 2, immediate := false }
    { location := "r_0_2".toList, bank := some 0, immediate := false }
    { location := "r_0_3".toList, bank := some 0, immediate := false }
    0

/-! ## Dependency graph (common/graph/graph.h, claim C9)

The SNAP `TNodeEDatNet` is modelled as a node list in ascending-id order
(ids are handed out sequentially, and SNAP iterates nodes in that order)
plus an edge set; `AddEdge` refuses duplicates, `DelNode` removes the node
with its incident edges. -/

/-- The `NODE_TYPE` enum of graph.h. -/
inductive NodeType where
  | OPERATION
  | REGISTER_ADDRESS
  | IMMEDIATE
deriving DecidableEq, Repr

/-- The per-node payload of `graph::Node` that the layering observes:
id, label, and node type. -/
structure GraphNode where
  id : ℕ
  label : List Char
  ntype : NodeType
deriving DecidableEq, Repr

/-- A `TNodeEDatNet` network: node list in iteration order, edge set. -/
structure SnapGraph where
  nodes : List GraphNode := []
  edges : List (ℕ × ℕ) := []
deriving DecidableEq, Repr

/-- `AddNode` (ids are handed out sequentially by the builder, so the
appended list stays in ascending-id order). -/
def snapAddNode (g : SnapGraph) (n : GraphNode) : SnapGraph :=
  { g with nodes := g.nodes ++ [n] }

/-- `AddEdge(src, dst)`: SNAP returns -2 and leaves the network unchanged
when the edge already exists. -/
def snapAddEdge (g : SnapGraph) (s d : ℕ) : SnapGraph :=
  if (s, d) ∈ g.edges then g else { g with edges := g.edges ++ [(s, d)] }

/-- `DelNode`: the node and its incident edges disappear. -/
def snapDelNode (g : SnapGraph) (i : ℕ) : SnapGraph :=
  { nodes := g.nodes.filter (fun n => ¬(n.id = i)),
    edges := g.edges.filter (fun e => ¬(e.1 = i ∨ e.2 = i)) }

/-- `TNodeI::GetInDeg`. -/
def snapInDeg (g : SnapGraph) (i : ℕ) : ℕ :=
  (g.edges.filter (fun e => e.2 = i)).length

/-- The in-neighbour ids of a node (`GetInNId(0..GetInDeg))`). -/
def snapInNbrs (g : SnapGraph) (i : ℕ) : List ℕ :=
  (g.edges.filter (fun e => e.2 = i)).map Prod.fst

/-- The out-neighbour ids of a node (`GetOutNId(0..GetOutDeg))`). -/
def snapOutNbrs (g : SnapGraph) (i : ℕ) : List ℕ :=
  (g.edges.filter (fun e => e.1 = i)).map Prod.snd

/-- `Graph::removeNodeMaintainConnections` (graph.h lines 325-353): record
the in- and out-neighbours, delete the node, then connect every
predecessor to every successor. -/
def removeNodeMaintainConnections (g : SnapGraph) (i : ℕ) : SnapGraph :=
  let prev := snapInNbrs g i
  let after := snapOutNbrs g i
  prev.foldl (fun acc p => after.foldl (fun acc2 a => snapAddEdge acc2 p a) acc)
    (snapDelNode g i)

/-- `Graph::getInstructionGraph` (graph.h lines 134-146): snapshot the
node list, then remove every non-OPERATION node while maintaining
connections. -/
def getInstructionGraph (g : SnapGraph) : SnapGraph :=
  (g.nodes.filter (fun n => ¬(n.ntype = NodeType.OPERATION))).foldl
    (fun acc n => removeNodeMaintainConnections acc n.id) g

/-- `Graph::getInputNodes()` with the default include flags (graph.h lines
302-316): the nodes of in-degree 0, in iteration order. -/
def getInputNodes (g : SnapGraph) : List GraphNode :=
  g.nodes.filter (fun n => snapInDeg g n.id = 0)

/-- `Graph::getNode(id)` (graph.h lines 261-276) on the original graph,
made total with a junk node (the layering only looks up ids that exist). -/
def getNodeById (g : SnapGraph) (i : ℕ) : GraphNode :=
  (g.nodes.find? (fun n => n.id = i)).getD { id := 0, label := [], ntype := .OPERATION }

/-- The `while (getNodeCount() > 0)` peel of `getGraphInputLayers`
(graph.h lines 355-377), fuelled: on an acyclic graph every iteration
removes at least one node, so `nodes.length + 1` fuel is exact (on a
cyclic graph the C++ loop never terminates, pushing empty layers). -/
def peelLayers : ℕ → SnapGraph → SnapGraph → List (List GraphNode)
  | 0, _, _ => []
  | fuel + 1, orig, cons =>
    if cons.nodes.length = 0 then []
    else
      let inputs := getInputNodes cons
      let layer := inputs.map (fun n => getNodeById orig n.id)
      layer :: peelLayers fuel orig (inputs.foldl (fun g n => snapDelNode g n.id) cons)

/-- `Graph::getGraphInputLayers`: repeatedly emit the in-degree-0 nodes of
a consumable clone (resolved against the original graph) and delete them. -/
def getGraphInputLayers (g : SnapGraph) : List (List GraphNode) :=
  peelLayers (g.nodes.length + 1) g g

/-- The running state of `Graph::createGraph` (graph.h lines 183-259):
the network, `node_ID_Map`, and the `node_id` counter. -/
structure CGState where
  graph : SnapGraph := {}
  idMap : List (List Char × List ℕ) := []
  nextId : ℕ := 0

/-- The input-operand loop body of `createGraph` (lines 203-230): a known
location reuses the latest bound node (`retrievedID->second.back()`), an
unknown one allocates a REGISTER_ADDRESS (IMMEDIATE for immediates) node
bound to the location; either way an input→op edge is added. -/
def cgAddInput (opID : ℕ) (st : CGState) (op : Operand) : CGState :=
  match alistLookup st.idMap op.location with
  | some ids =>
      { st with graph := snapAddEdge st.graph (ids.getLastD 0) opID }
  | none =>
      { graph := snapAddEdge
          (snapAddNode st.graph
            { id := st.nextId, label := op.location,
              ntype := if op.immediate then .IMMEDIATE else .REGISTER_ADDRESS })
          st.nextId opID,
        idMap := alistSet st.idMap op.location [st.nextId],
        nextId := st.nextId + 1 }

/-- The output-operand loop body of `createGraph` (lines 232-255): a fresh
REGISTER_ADDRESS node is always allocated; an unknown location is bound to
it, a known one gets it appended (`push_back`) so that `back()` now sees
the newest writer; an op→output edge is added. -/
def cgAddOutput (opID : ℕ) (st : CGState) (op : Operand) : CGState :=
  let g := snapAddNode st.graph
    { id := st.nextId, label := op.location, ntype := .REGISTER_ADDRESS }
  match alistLookup st.idMap op.location with
  | none =>
      { graph := snapAddEdge g opID st.nextId,
        idMap := alistSet st.idMap op.location [st.nextId],
        nextId := st.nextId + 1 }
  | some ids =>
      { graph := snapAddEdge g opID st.nextId,
        idMap := alistSet st.idMap op.location (ids ++ [st.nextId]),
        nextId := st.nextId + 1 }

/-- One instruction of `createGraph`: allocate the OPERATION node
(labelled `name_<id>`), rebind `node_ID_Map[name]`, then process the
input and output operands. -/
def cgAddInstr (st : CGState) (i : Instr) : CGState :=
  let opID := st.nextId
  let st1 : CGState :=
    { graph := snapAddNode st.graph
        { id := opID, label := i.name ++ '_' :: natToChars opID,
          ntype := .OPERATION },
      idMap := alistSet st.idMap i.name [opID],
      nextId := opID + 1 }
  i.outputs.foldl (cgAddOutput opID) (i.inputs.foldl (cgAddInput opID) st1)

/-- `Graph::createGraph(instructions)`. -/
def createGraph (prog : List Instr) : SnapGraph :=
  (prog.foldl cgAddInstr {}).graph

/-- The S6 scenario program `[add c a b; add d a b; mul e c d]`. -/
def c9Prog : List Instr :=
  [mkArith ("add".toList) 0
      { location := "c".toList, bank := some 0, immediate := false }
      { location := "a".toList, bank := some 0, immediate := false }
      { location := "b".toList, bank := some 0, immediate := false } 0,
   mkArith ("add".toList) 0
      { location := "d".toList, bank := some 0, immediate := false }
      { location := "a".toList, bank := some 0, immediate := false }
      { location := "b".toList, bank := some 0, immediate := false } 0,
   mkArith ("mul".toList) 0
      { location := "e".toList, bank := some 0, immediate := false }
      { location := "c".toList, bank := some 0, immediate := false }
      { location := "d".toList, bank := some 0, immediate := false } 0]

/-! ## Basic lemmas about the register file -/

theorem alistLookup_alistSet_self {β : Type} (l : List (List Char × β)) (k : List Char)
    (v : β) : alistLookup (alistSet l k v) k = some v := by
  induction l with
  | nil => simp [alistSet, alistLookup]
  | cons hd tl ih =>
    obtain ⟨n, w⟩ := hd
    by_cases h : n = k
    · simp [alistSet, alistLookup, h]
    · simp [alistSet, alistLookup, h, ih]

theorem alistLookup_alistSet_ne {β : Type} (l : List (List Char × β)) (k k2 : List Char)
    (v : β) (h : k2 ≠ k) : alistLookup (alistSet l k v) k2 = alistLookup l k2 := by
  induction l with
  | nil => simp [alistSet, alistLookup, Ne.symm h]
  | cons hd tl ih =>
    obtain ⟨n, w⟩ := hd
    by_cases hn : n = k
    · subst hn
      simp [alistSet, alistLookup, Ne.symm h]
    · simp [alistSet, alistLookup, hn, ih]

theorem alistLookup_alistSet_of_lookup_eq {β : Type} (l : List (List Char × β))
    (k : List Char) (v : β) (h : alistLookup l k = some v) (k2 : List Char) :
    alistLookup (alistSet l k v) k2 = alistLookup l k2 := by
  by_cases hk : k2 = k
  · subst hk
    rw [alistLookup_alistSet_self, h]
  · exact alistLookup_alistSet_ne l k k2 v hk

theorem regLookup_regSet_ne (regs : Registers) (l k : List Char) (v : List ℕ)
    (h : k ≠ l) : regLookup (regSet regs l v) k = regLookup regs k :=
  alistLookup_alistSet_ne regs l k v h

theorem resizeList_nil (w : ℕ) : resizeList [] w = List.replicate w 0 := by
  simp [resizeList]

theorem resizeList_of_length_eq (v : List ℕ) (w : ℕ) (h : v.length = w) :
    resizeList v w = v := by
  simp [resizeList, h.symm, List.take_of_length_le]

/-- `operator[]` on a register already stored with the configured width
returns that register and leaves every lookup unchanged. -/
theorem memIndex_of_lookup (regs : Registers) (loc : List Char) (v : List ℕ) (w : ℕ)
    (h : regLookup regs loc = some v) (hlen : v.length = w) :
    (memIndex w regs loc).2 = v ∧
    ∀ k, regLookup (memIndex w regs loc).1 k = regLookup regs k := by
  have hv : (memIndex w regs loc) = (regSet regs loc v, v) := by
    simp [memIndex, h, hlen]
  rw [hv]
  exact ⟨rfl, fun k => alistLookup_alistSet_of_lookup_eq regs loc v h k⟩

/-- `operator[]` never changes the value stored at a different name. -/
theorem regLookup_memIndex_ne (w : ℕ) (regs : Registers) (l k : List Char)
    (h : k ≠ l) : regLookup (memIndex w regs l).1 k = regLookup regs k := by
  simp only [memIndex]
  exact alistLookup_alistSet_ne regs l k _ h

theorem getD_map_range_zero (f : ℕ → ℕ) (n : ℕ) (h : 0 < n) :
    (((List.range n).map f).getD 0 0) = f 0 := by
  obtain ⟨m, rfl⟩ := Nat.exists_eq_succ_of_ne_zero (Nat.pos_iff_ne_zero.mp h)
  rw [List.range_succ_eq_map]
  simp [List.getD]

theorem getD_replicate_zero (n a d : ℕ) (h : 0 < n) :
    (List.replicate n a).getD 0 d = a := by
  cases n with
  | zero => omega
  | succ m => simp [List.replicate_succ, List.getD]

/-- `decode` dispatches a mac instruction to `macInstrDecodeExecute`. -/
theorem decode_name_mac (st : FunctionalModel) (i : Instr) (h : i.name = "mac".toList) :
    decode st i = macInstrDecodeExecute st i := by
  unfold decode; rw [h]; rfl

/-- Running the mac executor on a state whose operand registers are present
with the configured width: the destination register becomes the lane-wise
Montgomery multiply-accumulate of the pre-state registers. -/
theorem macExec_spec (st : FunctionalModel) (i : Instr) (dstOp s1Op s2Op : Operand)
    (dv av bv : List ℕ) (q : ℕ)
    (hout : i.outputs = [dstOp]) (hin : i.inputs = [dstOp, s1Op, s2Op])
    (hdv : regLookup st.registers dstOp.location = some dv)
    (hdlen : dv.length = multiRegisterWidth)
    (hav : regLookup st.registers s1Op.location = some av)
    (halen : av.length = multiRegisterWidth)
    (hbv : regLookup st.registers s2Op.location = some bv)
    (hblen : bv.length = multiRegisterWidth)
    (hq : vecGet? st.modulus_chain i.residual = some q) :
    ∃ st2, macInstrDecodeExecute st i = some st2 ∧
      regLookup st2.registers dstOp.location =
        some ((List.range multiRegisterWidth).map fun x =>
          montgomeryAdd (dv.getD x 0)
            (montgomeryMul (av.getD x 0) (bv.getD x 0) q true) q true) := by
  obtain ⟨h1v, h1p⟩ := memIndex_of_lookup st.registers dstOp.location dv
    multiRegisterWidth hdv hdlen
  obtain ⟨h2v, h2p⟩ := memIndex_of_lookup
    (memIndex multiRegisterWidth st.registers dstOp.location).1 dstOp.location dv
    multiRegisterWidth (by rw [h1p dstOp.location]; exact hdv) hdlen
  obtain ⟨h3v, h3p⟩ := memIndex_of_lookup
    (memIndex multiRegisterWidth
      (memIndex multiRegisterWidth st.registers dstOp.location).1 dstOp.location).1
    s1Op.location av multiRegisterWidth
    (by rw [h2p s1Op.location, h1p s1Op.location]; exact hav) halen
  obtain ⟨h4v, h4p⟩ := memIndex_of_lookup
    (memIndex multiRegisterWidth
      (memIndex multiRegisterWidth
        (memIndex multiRegisterWidth st.registers dstOp.location).1 dstOp.location).1
      s1Op.location).1
    s2Op.location bv multiRegisterWidth
    (by rw [h3p s2Op.location, h2p s2Op.location, h1p s2Op.location]; exact hbv) hblen
  have hrun : macInstrDecodeExecute st i = some
      { st with
        registers :=
          regSet
            (memIndex multiRegisterWidth
              (memIndex multiRegisterWidth
                (memIndex multiRegisterWidth
                  (memIndex multiRegisterWidth st.registers dstOp.location).1
                  dstOp.location).1
                s1Op.location).1
              s2Op.location).1
            dstOp.location
            ((List.range multiRegisterWidth).map fun x =>
              montgomeryAdd (dv.getD x 0)
                (montgomeryMul (av.getD x 0) (bv.getD x 0) q true) q true) } := by
    simp only [macInstrDecodeExecute, hout, hin, hq, List.getElem?_cons_zero,
      List.getElem?_cons_succ, h2v, h3v, h4v]
  exact ⟨_, hrun, alistLookup_alistSet_self _ _ _⟩

/-- The S3 pre-state: modulus chain `[97]`, `dst = [10, ...]`,
`a = [2, ...]`, `b = [3, ...]` at the hardware width 8192. -/
def s3State : FunctionalModel :=
  { registers := [("dst".toList, List.replicate multiRegisterWidth 10),
                  ("a".toList, List.replicate multiRegisterWidth 2),
                  ("b".toList, List.replicate multiRegisterWidth 3)],
    modulus_chain := [97] }

/-- The S3 instruction `mac dst a b 0` as produced by the parser: the
INPUT_OUTPUT operand appears both as output 0 and input 0. -/
def s3Mac : Instr :=
  { name := "mac".toList,
    pmd := 13,
    outputs := [⟨"dst".toList, none, false⟩],
    inputs := [⟨"dst".toList, none, false⟩, ⟨"a".toList, none, false⟩,
               ⟨"b".toList, none, false⟩],
    residual := 0 }

/-- C2 (amended): executing a `mac` instruction stores, for every lane `x`,
`montgomeryAdd(dst[x], montgomeryMul(a[x], b[x], q), q)` into `dst[x]`,
with `q = modulus_chain[residual]` — the Montgomery-form semantics, not the
plain `(dst + a * b) mod q` of the claim. -/
theorem mac_lane_semantics (st : FunctionalModel) (i : Instr) (dstOp s1Op s2Op : Operand)
    (dv av bv : List ℕ) (q : ℕ) (hname : i.name = "mac".toList)
    (hout : i.outputs = [dstOp]) (hin : i.inputs = [dstOp, s1Op, s2Op])
    (hdv : regLookup st.registers dstOp.location = some dv)
    (hdlen : dv.length = multiRegisterWidth)
    (hav : regLookup st.registers s1Op.location = some av)
    (halen : av.length = multiRegisterWidth)
    (hbv : regLookup st.registers s2Op.location = some bv)
    (hblen : bv.length = multiRegisterWidth)
    (hq : vecGet? st.modulus_chain i.residual = some q) :
    ∃ st2, decode st i = some st2 ∧
      regLookup st2.registers dstOp.location =
        some ((List.range multiRegisterWidth).map fun x =>
          montgomeryAdd (dv.getD x 0)
            (montgomeryMul (av.getD x 0) (bv.getD x 0) q true) q true) := by
  rw [decode_name_mac st i hname]
  exact macExec_spec st i dstOp s1Op s2Op dv av bv q hout hin hdv hdlen hav halen
    hbv hblen hq

/-- C2 witness: the amended lane semantics applied to the concrete S3
scenario (`q = 97`, `dst = [10, ...]`, `a = [2, ...]`, `b = [3, ...]`). -/
theorem mac_lane_semantics_witness :
    s3Mac.name = "mac".toList ∧
    regLookup s3State.registers ("dst".toList) =
      some (List.replicate multiRegisterWidth 10) ∧
    vecGet? s3State.modulus_chain s3Mac.residual = some 97 ∧
    ∃ st2, decode s3State s3Mac = some st2 ∧
      regLookup st2.registers (("dst".toList : List Char)) =
        some ((List.range multiRegisterWidth).map fun x =>
          montgomeryAdd ((List.replicate multiRegisterWidth 10).getD x 0)
            (montgomeryMul ((List.replicate multiRegisterWidth 2).getD x 0)
              ((List.replicate multiRegisterWidth 3).getD x 0) 97 true) 97 true) :=
  ⟨rfl, rfl, rfl,
    mac_lane_semantics s3State s3Mac ⟨"dst".toList, none, false⟩
      ⟨"a".toList, none, false⟩ ⟨"b".toList, none, false⟩
      (List.replicate multiRegisterWidth 10) (List.replicate multiRegisterWidth 2)
      (List.replicate multiRegisterWidth 3) 97 rfl rfl rfl rfl
      (List.length_replicate _ _) rfl (List.length_replicate _ _) rfl
      (List.length_replicate _ _) rfl⟩

/-- C2 counterexample: in the S3 scenario the executed `mac dst a b 0`
leaves `dst[0] = 10` (Montgomery semantics:
`montgomeryMul(2, 3, 97) = 0`, then `montgomeryAdd(10, 0, 97) = 10`),
not `(10 + 2 * 3) mod 97 = 16` as the claim states. -/
theorem mac_s3_counterexample :
    ((decode s3State s3Mac).bind fun st2 =>
      (regLookup st2.registers ("dst".toList)).map fun v => v.getD 0 0) = some 10 ∧
    (10 : ℕ) ≠ 16 := by
  obtain ⟨st2, hrun, hreg⟩ := macExec_spec s3State s3Mac ⟨"dst".toList, none, false⟩
    ⟨"a".toList, none, false⟩ ⟨"b".toList, none, false⟩
    (List.replicate multiRegisterWidth 10) (List.replicate multiRegisterWidth 2)
    (List.replicate multiRegisterWidth 3) 97 rfl rfl rfl
    (List.length_replicate _ _) rfl (List.length_replicate _ _) rfl
    (List.length_replicate _ _) rfl
  have hdec : decode s3State s3Mac = some st2 := by
    rw [decode_name_mac s3State s3Mac rfl]; exact hrun
  refine ⟨?_, by norm_num⟩
  rw [hdec]
  simp only [Option.some_bind]
  rw [hreg]
  simp only [Option.map_some']
  rw [getD_map_range_zero _ _ (by norm_num [multiRegisterWidth])]
  rw [getD_replicate_zero _ _ _ (by norm_num [multiRegisterWidth]),
    getD_replicate_zero _ _ _ (by norm_num [multiRegisterWidth]),
    getD_replicate_zero _ _ _ (by norm_num [multiRegisterWidth])]
  decide

theorem alistLookup_append_of_none {β : Type} (l : List (List Char × β))
    (k : List Char) (v : β) (h : alistLookup l k = none) :
    alistLookup (l ++ [(k, v)]) k = some v := by
  induction l with
  | nil => simp [alistLookup]
  | cons hd tl ih =>
    obtain ⟨n, w⟩ := hd
    by_cases hn : n = k
    · simp [alistLookup, hn] at h
    · simp only [alistLookup, hn, if_neg hn, List.cons_append] at h ⊢
      exact ih h

/-- C6 counterexample: `readMemory` on an absent name returns a reference to
a freshly allocated register of size 0, not of the configured width
`W = 8192`. -/
theorem readMemory_size_counterexample :
    (readMemory [] ("a".toList)).2.length = 0 ∧ (0 : ℕ) ≠ multiRegisterWidth := by
  constructor
  · rfl
  · norm_num [multiRegisterWidth]

/-- C6 (amended): for a register name absent from the register file,
`readMemory` lazily allocates an empty (size-0) register and returns a
reference to it; it is the indexing `operator[]` — the accessor the
executors use — that lazily allocates and sizes a register to the
configured width `W`. -/
theorem readMemory_lazy_alloc (regs : Registers) (loc : List Char)
    (h : regLookup regs loc = none) :
    readMemory regs loc = (regs ++ [(loc, [])], []) ∧
    regLookup (readMemory regs loc).1 loc = some [] ∧
    (memIndex multiRegisterWidth regs loc).2 = List.replicate multiRegisterWidth 0 := by
  refine ⟨?_, ?_, ?_⟩
  · simp [readMemory, h]
  · simp only [readMemory, h]
    exact alistLookup_append_of_none regs loc [] h
  · simp only [memIndex, h, Option.getD_none, List.length_nil]
    rw [if_pos (by norm_num [multiRegisterWidth]), resizeList_nil]

/-- C6 witness: the amended allocation behaviour at the empty register file
and the name `a`. -/
theorem readMemory_lazy_alloc_witness :
    regLookup [] ("a".toList) = none ∧
    readMemory [] ("a".toList) = ([(("a".toList : List Char), ([] : List ℕ))], []) ∧
    regLookup (readMemory [] ("a".toList)).1 ("a".toList) = some [] ∧
    (memIndex multiRegisterWidth [] ("a".toList)).2 =
      List.replicate multiRegisterWidth 0 := by
  obtain ⟨h1, h2, h3⟩ := readMemory_lazy_alloc [] ("a".toList) rfl
  exact ⟨rfl, h1, h2, h3⟩

/-! ## Dispatch lemmas for decode -/

theorem decode_name_add (st : FunctionalModel) (i : Instr) (h : i.name = "add".toList) :
    decode st i = addInstrDecodeExecute st i := by
  unfold decode; rw [h]; rfl

theorem decode_name_sub (st : FunctionalModel) (i : Instr) (h : i.name = "sub".toList) :
    decode st i = subInstrDecodeExecute st i := by
  unfold decode; rw [h]; rfl

theorem decode_name_mul (st : FunctionalModel) (i : Instr) (h : i.name = "mul".toList) :
    decode st i = mulInstrDecodeExecute st i := by
  unfold decode; rw [h]; rfl

theorem decode_name_muli (st : FunctionalModel) (i : Instr) (h : i.name = "muli".toList) :
    decode st i = muliInstrDecodeExecute st i := by
  unfold decode; rw [h]; rfl

theorem decode_name_maci (st : FunctionalModel) (i : Instr) (h : i.name = "maci".toList) :
    decode st i = maciInstrDecodeExecute st i := by
  unfold decode; rw [h]; rfl

theorem decode_name_copy (st : FunctionalModel) (i : Instr) (h : i.name = "copy".toList) :
    decode st i = copyInstrDecodeExecute st i := by
  unfold decode; rw [h]; rfl

/-! ## Frame lemmas: the arithmetic and copy executors write only their
operand registers -/

theorem addExec_frame (st st2 : FunctionalModel) (i : Instr) (loc : List Char)
    (hrun : addInstrDecodeExecute st i = some st2)
    (hin : ∀ op ∈ i.inputs, op.location ≠ loc)
    (hout : ∀ op ∈ i.outputs, op.location ≠ loc) :
    regLookup st2.registers loc = regLookup st.registers loc := by
  unfold addInstrDecodeExecute at hrun
  split at hrun
  next dstOp s1Op s2Op ho h1 h2 =>
    split at hrun
    next q hq =>
      injection hrun with hrun
      subst hrun
      have hd : loc ≠ dstOp.location := (hout dstOp (List.getElem?_mem ho)).symm
      have hs1 : loc ≠ s1Op.location := (hin s1Op (List.getElem?_mem h1)).symm
      have hs2 : loc ≠ s2Op.location := (hin s2Op (List.getElem?_mem h2)).symm
      rw [regLookup_regSet_ne _ _ _ _ hd, regLookup_memIndex_ne _ _ _ _ hs2,
        regLookup_memIndex_ne _ _ _ _ hs1, regLookup_memIndex_ne _ _ _ _ hd]
    next => exact absurd hrun (by simp)
  next => exact absurd hrun (by simp)

theorem subExec_frame (st st2 : FunctionalModel) (i : Instr) (loc : List Char)
    (hrun : subInstrDecodeExecute st i = some st2)
    (hin : ∀ op ∈ i.inputs, op.location ≠ loc)
    (hout : ∀ op ∈ i.outputs, op.location ≠ loc) :
    regLookup st2.registers loc = regLookup st.registers loc := by
  unfold subInstrDecodeExecute at hrun
  split at hrun
  next dstOp s1Op s2Op ho h1 h2 =>
    split at hrun
    next q hq =>
      injection hrun with hrun
      subst hrun
      have hd : loc ≠ dstOp.location := (hout dstOp (List.getElem?_mem ho)).symm
      have hs1 : loc ≠ s1Op.location := (hin s1Op (List.getElem?_mem h1)).symm
      have hs2 : loc ≠ s2Op.location := (hin s2Op (List.getElem?_mem h2)).symm
      rw [regLookup_regSet_ne _ _ _ _ hd, regLookup_memIndex_ne _ _ _ _ hs2,
        regLookup_memIndex_ne _ _ _ _ hs1, regLookup_memIndex_ne _ _ _ _ hd]
    next => exact absurd hrun (by simp)
  next => exact absurd hrun (by simp)

theorem mulExec_frame (st st2 : FunctionalModel) (i : Instr) (loc : List Char)
    (hrun : mulInstrDecodeExecute st i = some st2)
    (hin : ∀ op ∈ i.inputs, op.location ≠ loc)
    (hout : ∀ op ∈ i.outputs, op.location ≠ loc) :
    regLookup st2.registers loc = regLookup st.registers loc := by
  unfold mulInstrDecodeExecute at hrun
  split at hrun
  next dstOp s1Op s2Op ho h1 h2 =>
    split at hrun
    next q hq =>
      injection hrun with hrun
      subst hrun
      have hd : loc ≠ dstOp.location := (hout dstOp (List.getElem?_mem ho)).symm
      have hs1 : loc ≠ s1Op.location := (hin s1Op (List.getElem?_mem h1)).symm
      have hs2 : loc ≠ s2Op.location := (hin s2Op (List.getElem?_mem h2)).symm
      rw [regLookup_regSet_ne _ _ _ _ hd, regLookup_memIndex_ne _ _ _ _ hs2,
        regLookup_memIndex_ne _ _ _ _ hs1, regLookup_memIndex_ne _ _ _ _ hd]
    next => exact absurd hrun (by simp)
  next => exact absurd hrun (by simp)

theorem muliExec_frame (st st2 : FunctionalModel) (i : Instr) (loc : List Char)
    (hrun : muliInstrDecodeExecute st i = some st2)
    (hin : ∀ op ∈ i.inputs, op.location ≠ loc)
    (hout : ∀ op ∈ i.outputs, op.location ≠ loc) :
    regLookup st2.registers loc = regLookup st.registers loc := by
  unfold muliInstrDecodeExecute at hrun
  split at hrun
  next dstOp s1Op immOp ho h1 h2 =>
    split at hrun
    next q hq =>
      injection hrun with hrun
      subst hrun
      have hd : loc ≠ dstOp.location := (hout dstOp (List.getElem?_mem ho)).symm
      have hs1 : loc ≠ s1Op.location := (hin s1Op (List.getElem?_mem h1)).symm
      have hs2 : loc ≠ immOp.location := (hin immOp (List.getElem?_mem h2)).symm
      rw [regLookup_regSet_ne _ _ _ _ hd, regLookup_memIndex_ne _ _ _ _ hs2,
        regLookup_memIndex_ne _ _ _ _ hs1, regLookup_memIndex_ne _ _ _ _ hd]
    next => exact absurd hrun (by simp)
  next => exact absurd hrun (by simp)

theorem macExec_frame (st st2 : FunctionalModel) (i : Instr) (loc : List Char)
    (hrun : macInstrDecodeExecute st i = some st2)
    (hin : ∀ op ∈ i.inputs, op.location ≠ loc)
    (hout : ∀ op ∈ i.outputs, op.location ≠ loc) :
    regLookup st2.registers loc = regLookup st.registers loc := by
  unfold macInstrDecodeExecute at hrun
  split at hrun
  next dstOp accOp s1Op s2Op ho ha h1 h2 =>
    split at hrun
    next q hq =>
      injection hrun with hrun
      subst hrun
      have hd : loc ≠ dstOp.location := (hout dstOp (List.getElem?_mem ho)).symm
      have hac : loc ≠ accOp.location := (hin accOp (List.getElem?_mem ha)).symm
      have hs1 : loc ≠ s1Op.location := (hin s1Op (List.getElem?_mem h1)).symm
      have hs2 : loc ≠ s2Op.location := (hin s2Op (List.getElem?_mem h2)).symm
      rw [regLookup_regSet_ne _ _ _ _ hd, regLookup_memIndex_ne _ _ _ _ hs2,
        regLookup_memIndex_ne _ _ _ _ hs1, regLookup_memIndex_ne _ _ _ _ hac,
        regLookup_memIndex_ne _ _ _ _ hd]
    next => exact absurd hrun (by simp)
  next => exact absurd hrun (by simp)

theorem maciExec_frame (st st2 : FunctionalModel) (i : Instr) (loc : List Char)
    (hrun : maciInstrDecodeExecute st i = some st2)
    (hin : ∀ op ∈ i.inputs, op.location ≠ loc)
    (hout : ∀ op ∈ i.outputs, op.location ≠ loc) :
    regLookup st2.registers loc = regLookup st.registers loc := by
  unfold maciInstrDecodeExecute at hrun
  split at hrun
  next dstOp accOp s1Op immOp ho ha h1 h2 =>
    split at hrun
    next q hq =>
      injection hrun with hrun
      subst hrun
      have hd : loc ≠ dstOp.location := (hout dstOp (List.getElem?_mem ho)).symm
      have hac : loc ≠ accOp.location := (hin accOp (List.getElem?_mem ha)).symm
      have hs1 : loc ≠ s1Op.location := (hin s1Op (List.getElem?_mem h1)).symm
      have hs2 : loc ≠ immOp.location := (hin immOp (List.getElem?_mem h2)).symm
      rw [regLookup_regSet_ne _ _ _ _ hd, regLookup_memIndex_ne _ _ _ _ hs2,
        regLookup_memIndex_ne _ _ _ _ hs1, regLookup_memIndex_ne _ _ _ _ hac,
        regLookup_memIndex_ne _ _ _ _ hd]
    next => exact absurd hrun (by simp)
  next => exact absurd hrun (by simp)

theorem copyExec_frame (st st2 : FunctionalModel) (i : Instr) (loc : List Char)
    (hrun : copyInstrDecodeExecute st i = some st2)
    (hin : ∀ op ∈ i.inputs, op.location ≠ loc)
    (hout : ∀ op ∈ i.outputs, op.location ≠ loc) :
    regLookup st2.registers loc = regLookup st.registers loc := by
  unfold copyInstrDecodeExecute at hrun
  split at hrun
  next dstOp s1Op ho h1 =>
    injection hrun with hrun
    subst hrun
    have hd : loc ≠ dstOp.location := (hout dstOp (List.getElem?_mem ho)).symm
    have hs1 : loc ≠ s1Op.location := (hin s1Op (List.getElem?_mem h1)).symm
    rw [regLookup_regSet_ne _ _ _ _ hd, regLookup_memIndex_ne _ _ _ _ hs1,
      regLookup_memIndex_ne _ _ _ _ hd]
  next => exact absurd hrun (by simp)

/-- C10: for every arithmetic or copy instruction executed by `decode`, any
register whose name is not an input or output operand location of the
instruction holds the same value after the execution as before. -/
theorem decode_frame (st st2 : FunctionalModel) (i : Instr) (loc : List Char)
    (hname : i.name ∈ ["add".toList, "sub".toList, "mul".toList, "muli".toList,
      "mac".toList, "maci".toList, "copy".toList])
    (hin : ∀ op ∈ i.inputs, op.location ≠ loc)
    (hout : ∀ op ∈ i.outputs, op.location ≠ loc)
    (hrun : decode st i = some st2) :
    regLookup st2.registers loc = regLookup st.registers loc := by
  simp only [List.mem_cons, List.not_mem_nil, or_false] at hname
  rcases hname with h | h | h | h | h | h | h
  · rw [decode_name_add st i h] at hrun
    exact addExec_frame st st2 i loc hrun hin hout
  · rw [decode_name_sub st i h] at hrun
    exact subExec_frame st st2 i loc hrun hin hout
  · rw [decode_name_mul st i h] at hrun
    exact mulExec_frame st st2 i loc hrun hin hout
  · rw [decode_name_muli st i h] at hrun
    exact muliExec_frame st st2 i loc hrun hin hout
  · rw [decode_name_mac st i h] at hrun
    exact macExec_frame st st2 i loc hrun hin hout
  · rw [decode_name_maci st i h] at hrun
    exact maciExec_frame st st2 i loc hrun hin hout
  · rw [decode_name_copy st i h] at hrun
    exact copyExec_frame st st2 i loc hrun hin hout

/-- The copy instruction used by the C10 witness. -/
def w10Copy : Instr :=
  { name := "copy".toList,
    outputs := [⟨"d".toList, none, false⟩],
    inputs := [⟨"s".toList, none, false⟩] }

/-- The post-state of executing `w10Copy` from the empty model: both
operand registers are lazily allocated at the hardware width. -/
def w10Post : FunctionalModel :=
  { registers := [("d".toList, List.replicate multiRegisterWidth 0),
                  ("s".toList, List.replicate multiRegisterWidth 0)] }

/-- C10 witness: the frame property applied to a concrete `copy d s`
executed on the empty model, observed at the unrelated register name `z`. -/
theorem decode_frame_witness :
    decode {} w10Copy = some w10Post ∧
    regLookup w10Post.registers ("z".toList) = regLookup ({} : FunctionalModel).registers ("z".toList) := by
  have hrun : decode {} w10Copy = some w10Post := by
    rw [decode_name_copy {} w10Copy rfl]
    rfl
  refine ⟨hrun, ?_⟩
  exact decode_frame {} w10Post w10Copy ("z".toList) (by decide)
    (by intro op hop; fin_cases hop; decide)
    (by intro op hop; fin_cases hop; decide) hrun

/-! ## Lemmas about splitLocation (claim C5) -/

theorem charPositions_cons (a : Char) (s : List Char) (c : Char) :
    charPositions (a :: s) c =
      (if a == c then [0] else []) ++ (charPositions s c).map Nat.succ := by
  unfold charPositions
  rw [List.length_cons, List.range_succ_eq_map, List.filter_cons]
  simp only [List.getD_cons_zero]
  rw [List.filter_map]
  have hp : ((fun i => (a :: s).getD i ' ' == c) ∘ Nat.succ) =
      fun i => s.getD i ' ' == c := by
    funext i
    simp [Function.comp, List.getD_cons_succ]
  rw [hp]
  by_cases h : a == c <;> simp [h]

theorem charPositions_length (s : List Char) (c : Char) :
    (charPositions s c).length = s.count c := by
  induction s with
  | nil => simp [charPositions]
  | cons a s ih =>
    rw [charPositions_cons, List.count_cons]
    by_cases h : a == c <;> simp [h, ih]

theorem charPositions_headI (s : List Char) (c : Char)
    (h : charPositions s c ≠ []) : (charPositions s c).headI = s.indexOf c := by
  induction s with
  | nil => simp [charPositions] at h
  | cons a s ih =>
    rw [charPositions_cons] at h ⊢
    rw [List.indexOf_cons]
    by_cases ha : (a == c) = true
    · simp [ha]
    · simp only [ha, if_false, Bool.false_eq_true, List.nil_append,
        cond_false] at h ⊢
      have hne : charPositions s c ≠ [] := by
        intro hc; rw [hc] at h; simp at h
      obtain ⟨b, l, hb⟩ := List.exists_cons_of_ne_nil hne
      have hih := ih hne
      rw [hb] at hih ⊢
      simp only [List.map_cons, List.headI] at hih ⊢
      omega

theorem charPositions_pairwise (s : List Char) (c : Char) :
    (charPositions s c).Pairwise (· < ·) :=
  List.Pairwise.filter _ (List.pairwise_lt_range s.length)

theorem rfindChar_eq_getLast? (s : List Char) (c : Char) (pos : ℤ) :
    rfindChar s c pos = ((charPositions s c).filter (rfindInBound pos)).getLast? := by
  unfold rfindChar charPositions
  rw [List.filter_filter]

theorem headI_append_singleton {l : List ℕ} (a : ℕ) (h : l ≠ []) :
    (l ++ [a]).headI = l.headI := by
  cases l with
  | nil => exact absurd rfl h
  | cons b t => rfl

/-- The core invariant of the rfind loop: run for exactly the number of
in-bound underscores, it lands one position before the smallest of them. -/
theorem splitLoop_eq_headI (s : List Char) :
    ∀ (x : ℕ) (size : ℤ), 0 < x →
    ((charPositions s '_').filter (rfindInBound size)).length = x →
    splitLoop s x size =
      ((((charPositions s '_').filter (rfindInBound size)).headI : ℤ)) - 1 := by
  intro x
  induction x with
  | zero => intro size h; omega
  | succ y ih =>
    intro size _ hlen
    set cand := (charPositions s '_').filter (rfindInBound size) with hcand
    have hne : cand ≠ [] := by
      intro hc; rw [hc] at hlen; simp at hlen
    set p := cand.getLast hne with hp
    have hfind : rfindChar s '_' size = some p := by
      rw [rfindChar_eq_getLast?, ← hcand, List.getLast?_eq_getLast _ hne]
    have hsplit : splitLoop s (y + 1) size = splitLoop s y ((p : ℤ) - 1) := by
      show (match rfindChar s '_' size with
            | some p => splitLoop s y ((p : ℤ) - 1)
            | none => splitLoop s y (-2)) = splitLoop s y ((p : ℤ) - 1)
      rw [hfind]
    have hdecomp : cand.dropLast ++ [p] = cand := List.dropLast_concat_getLast hne
    have hpair : cand.Pairwise (· < ·) :=
      List.Pairwise.filter _ (charPositions_pairwise s '_')
    have hlt : ∀ i ∈ cand.dropLast, i < p := by
      intro i hi
      have := hpair
      rw [← hdecomp] at this
      have h2 := (List.pairwise_append.mp this).2.2
      exact h2 i hi p (List.mem_singleton_self p)
    cases y with
    | zero =>
      rw [hsplit]
      obtain ⟨a, ha⟩ := List.length_eq_one.mp hlen
      have hpa : p = a := by
        rw [hp]
        simp [ha]
      have hha : cand.headI = a := by rw [ha]; rfl
      show (p : ℤ) - 1 = (cand.headI : ℤ) - 1
      rw [hpa, hha]
    | succ z =>
      have hdlne : cand.dropLast ≠ [] := by
        intro hc
        rw [← hdecomp, hc] at hlen
        simp at hlen
      have hp1 : 1 ≤ p := by
        obtain ⟨b, t, hb⟩ := List.exists_cons_of_ne_nil hdlne
        have hbmem : b ∈ cand.dropLast := by rw [hb]; exact List.mem_cons_self b t
        have := hlt b hbmem
        omega
      have hbound : ∀ i : ℕ, rfindInBound ((p : ℤ) - 1) i = decide (i < p) := by
        intro i
        unfold rfindInBound
        have h1 : ¬ ((p : ℤ) - 1 < 0) := by omega
        simp only [decide_eq_false h1, Bool.or_false]
        by_cases h2 : i < p
        · have : (i : ℤ) ≤ (p : ℤ) - 1 := by omega
          simp [this, h2]
        · have : ¬ ((i : ℤ) ≤ (p : ℤ) - 1) := by omega
          simp [this, h2]
      have hpin : rfindInBound size p = true := by
        have hmem : p ∈ cand := by rw [← hdecomp]; simp
        rw [hcand] at hmem
        exact (List.mem_filter.mp hmem).2
      have hcand2 : (charPositions s '_').filter (rfindInBound ((p : ℤ) - 1)) =
          cand.dropLast := by
        have step1 : (charPositions s '_').filter (rfindInBound ((p : ℤ) - 1)) =
            (charPositions s '_').filter (fun i => decide (i < p)) :=
          List.filter_congr (fun i _ => hbound i)
        have step2 : (charPositions s '_').filter (fun i => decide (i < p)) =
            cand.filter (fun i => decide (i < p)) := by
          rw [hcand, List.filter_filter]
          refine (List.filter_congr ?_).symm
          intro i _
          by_cases h2 : i < p
          · have hib : rfindInBound size i = true := by
              unfold rfindInBound at hpin ⊢
              rcases Bool.or_eq_true_iff.mp hpin with h3 | h3
              · have h4 : (p : ℤ) ≤ size := of_decide_eq_true h3
                have : (i : ℤ) ≤ size := by omega
                simp [this]
              · simp [of_decide_eq_true h3]
            simp [h2, hib]
          · simp [h2]
        have step3 : cand.filter (fun i => decide (i < p)) = cand.dropLast := by
          conv_lhs => rw [← hdecomp]
          rw [List.filter_append]
          have h4 : List.filter (fun i => decide (i < p)) [p] = [] := by
            simp
          rw [h4, List.append_nil]
          exact List.filter_eq_self.mpr (fun i hi => by simp [hlt i hi])
        rw [step1, step2, step3]
      have hlen2 : ((charPositions s '_').filter (rfindInBound ((p : ℤ) - 1))).length
          = z + 1 := by
        rw [hcand2]
        have : cand.length = cand.dropLast.length + 1 := by
          rw [← hdecomp]; simp
        omega
      have hres := ih ((p : ℤ) - 1) (by omega) hlen2
      rw [hsplit, hres, hcand2]
      have h5 : cand.headI = cand.dropLast.headI := by
        conv_lhs => rw [← hdecomp]
        exact headI_append_singleton p hdlne
      rw [h5]

/-- C5 counterexample: for the location `r_0_3_1` the derived split is
root `r` and index `_0_3_1` — all underscore suffixes are removed — not
root `r_0_3` and index `_1` as the claim states. -/
theorem splitLocation_r031_counterexample :
    splitLocation ("r_0_3_1".toList) = ("r".toList, "_0_3_1".toList) ∧
    splitLocation ("r_0_3_1".toList) ≠ ("r_0_3".toList, "_1".toList) := by
  decide

/-- C5 (amended): for every operand location containing at least one
underscore, the rfind loop of `splitLocation` runs once per underscore and
therefore splits at the FIRST underscore: the root is the prefix before the
first underscore (all `_<n>` suffixes removed), the index is the remainder
starting at that underscore, and root concatenated with index is the
original location. -/
theorem splitLocation_spec (l : List Char) (h : '_' ∈ l) :
    splitLocation l = (l.take (l.indexOf '_'), l.drop (l.indexOf '_')) ∧
    (splitLocation l).1 ++ (splitLocation l).2 = l := by
  have hcount : l.count '_' ≠ 0 := by
    have := List.count_pos_iff.mpr h
    omega
  have hfull : (charPositions l '_').filter (rfindInBound (l.length : ℤ)) =
      charPositions l '_' := by
    refine List.filter_eq_self.mpr ?_
    intro i hi
    have : i < l.length := List.mem_range.mp (List.mem_filter.mp hi).1
    unfold rfindInBound
    have h2 : (i : ℤ) ≤ (l.length : ℤ) := by omega
    simp [h2]
  have hlen : ((charPositions l '_').filter (rfindInBound (l.length : ℤ))).length
      = l.count '_' := by
    rw [hfull, charPositions_length]
  have hloop := splitLoop_eq_headI l (l.count '_') (l.length : ℤ)
    (Nat.pos_of_ne_zero hcount) hlen
  rw [hfull] at hloop
  have hne : charPositions l '_' ≠ [] := by
    intro hc
    rw [← charPositions_length l '_', hc] at hcount
    simp at hcount
  have hhead := charPositions_headI l '_' hne
  have hmain : splitLocation l = (l.take (l.indexOf '_'), l.drop (l.indexOf '_')) := by
    unfold splitLocation
    rw [if_neg hcount, hloop, hhead]
    show (l.take (((l.indexOf '_' : ℤ) - 1 + 1).toNat),
          l.drop (((l.indexOf '_' : ℤ) - 1 + 1).toNat)) =
        (l.take (l.indexOf '_'), l.drop (l.indexOf '_'))
    have h6 : ((l.indexOf '_' : ℤ) - 1 + 1).toNat = l.indexOf '_' := by omega
    rw [h6]
  exact ⟨hmain, by rw [hmain]; exact List.take_append_drop _ l⟩

/-- C5 witness: the amended split behaviour at the location `r_0_3_1`,
whose first underscore is at index 1. -/
theorem splitLocation_spec_witness :
    ('_' ∈ "r_0_3_1".toList) ∧
    splitLocation ("r_0_3_1".toList) =
      (("r_0_3_1".toList).take (("r_0_3_1".toList).indexOf '_'),
       ("r_0_3_1".toList).drop (("r_0_3_1".toList).indexOf '_')) ∧
    (splitLocation ("r_0_3_1".toList)).1 ++ (splitLocation ("r_0_3_1".toList)).2 =
      "r_0_3_1".toList :=
  ⟨by decide, (splitLocation_spec ("r_0_3_1".toList) (by decide)).1,
    (splitLocation_spec ("r_0_3_1".toList) (by decide)).2⟩

/-! ## Lemmas: decimal round trip -/

theorem natToCharsGo_fuel (f1 : ℕ) :
    ∀ (f2 n : ℕ), n < f1 → n < f2 → natToCharsGo f1 n = natToCharsGo f2 n := by
  induction f1 with
  | zero => intro f2 n h1 _; omega
  | succ f1 ih =>
    intro f2 n h1 h2
    cases f2 with
    | zero => omega
    | succ f2 =>
      unfold natToCharsGo
      by_cases h : n < 10
      · rw [if_pos h, if_pos h]
      · rw [if_neg h, if_neg h]
        have hd : n / 10 < n := Nat.div_lt_self (by omega) (by norm_num)
        rw [ih f2 (n / 10) (by omega) (by omega)]

/-- The defining recurrence of `natToChars`, mirroring the digit emission
of `std::to_string`. -/
theorem natToChars_eq (n : ℕ) :
    natToChars n = if n < 10 then [Char.ofNat (48 + n)]
      else natToChars (n / 10) ++ [Char.ofNat (48 + n % 10)] := by
  by_cases h : n < 10
  · rw [if_pos h]
    unfold natToChars natToCharsGo
    rw [if_pos h]
  · rw [if_neg h]
    show natToCharsGo (n + 1) n = _
    unfold natToCharsGo
    rw [if_neg h]
    have hd : n / 10 < n := Nat.div_lt_self (by omega) (by norm_num)
    rw [natToCharsGo_fuel n (n / 10 + 1) (n / 10) (by omega) (by omega)]
    rfl

theorem natToChars_ne_nil (n : ℕ) : natToChars n ≠ [] := by
  rw [natToChars_eq]
  by_cases h : n < 10 <;> simp [h]

theorem natToChars_all_digits (n : ℕ) : ∀ c ∈ natToChars n, isDigitChar c = true := by
  induction n using Nat.strong_induction_on with
  | _ n ih =>
    rw [natToChars_eq]
    by_cases h : n < 10
    · rw [if_pos h]
      intro c hc
      rw [List.mem_singleton] at hc
      subst hc
      interval_cases n <;> decide
    · rw [if_neg h]
      intro c hc
      rcases List.mem_append.mp hc with h1 | h1
      · exact ih (n / 10) (Nat.div_lt_self (by omega) (by norm_num)) c h1
      · rw [List.mem_singleton] at h1
        subst h1
        have h2 : n % 10 < 10 := Nat.mod_lt n (by norm_num)
        set r := n % 10 with hr
        interval_cases r <;> decide

theorem digitsVal_append_singleton (A : List Char) (d : Char) :
    digitsVal (A ++ [d]) = digitsVal A * 10 + (d.toNat - 48) := by
  unfold digitsVal
  rw [List.foldl_append]
  rfl

theorem digitsVal_natToChars (n : ℕ) : digitsVal (natToChars n) = n := by
  induction n using Nat.strong_induction_on with
  | _ n ih =>
    rw [natToChars_eq]
    by_cases h : n < 10
    · rw [if_pos h]
      show 0 * 10 + ((Char.ofNat (48 + n)).toNat - 48) = n
      interval_cases n <;> decide
    · rw [if_neg h]
      rw [digitsVal_append_singleton,
        ih (n / 10) (Nat.div_lt_self (by omega) (by norm_num))]
      have h2 : n % 10 < 10 := Nat.mod_lt n (by norm_num)
      have h3 : (Char.ofNat (48 + n % 10)).toNat - 48 = n % 10 := by
        set r := n % 10 with hr
        interval_cases r <;> decide
      rw [h3]
      omega

theorem parseDigits_natToChars (n : ℕ) : parseDigits (natToChars n) = some n := by
  unfold parseDigits
  rw [List.takeWhile_eq_self_iff.mpr (natToChars_all_digits n)]
  rw [if_neg (natToChars_ne_nil n)]
  rw [digitsVal_natToChars]

theorem stoiInt_natToChars (n : ℕ) : stoiInt (natToChars n) = some (n : ℤ) := by
  obtain ⟨c, cs, hc⟩ := List.exists_cons_of_ne_nil (natToChars_ne_nil n)
  have hd : isDigitChar c = true := by
    apply natToChars_all_digits n
    rw [hc]
    exact List.mem_cons_self c cs
  have hval : 48 ≤ c.toNat ∧ c.toNat ≤ 57 := by
    unfold isDigitChar at hd
    have := of_decide_eq_true hd
    exact ⟨this.1, this.2⟩
  have hsp : (c == ' ') = false := by
    cases h : c == ' '
    · rfl
    · exfalso
      have h2 : c = ' ' := beq_iff_eq.mp h
      subst h2
      exact absurd hd (by decide)
  unfold stoiInt
  rw [hc, List.dropWhile_cons_of_neg (by simp [hsp])]
  have hminus : c ≠ '-' := by
    intro h
    subst h
    exact absurd hd (by decide)
  have hplus : c ≠ '+' := by
    intro h
    subst h
    exact absurd hd (by decide)
  have hmatch : (match c :: cs with
      | '-' :: rest => (parseDigits rest).map (fun n => -(n : ℤ))
      | '+' :: rest => (parseDigits rest).map (fun n => (n : ℤ))
      | rest => (parseDigits rest).map (fun n => (n : ℤ))) =
      (parseDigits (c :: cs)).map (fun n => (n : ℤ)) := by
    split
    next x rest heq =>
      rw [List.cons.injEq] at heq
      exact absurd heq.1 hminus
    next x rest heq =>
      rw [List.cons.injEq] at heq
      exact absurd heq.1 hplus
    next => rfl
  rw [hmatch, ← hc, parseDigits_natToChars]
  rfl

/-! ## Lemmas: register-name matching for the parameter-memory round trip -/

theorem charPositions_append (u w : List Char) (c : Char) :
    charPositions (u ++ w) c =
      charPositions u c ++ (charPositions w c).map (· + u.length) := by
  induction u with
  | nil =>
    simp only [List.nil_append, List.length_nil]
    have : ((· + 0) : ℕ → ℕ) = id := by funext i; simp
    simp [charPositions, this]
  | cons a u ih =>
    rw [List.cons_append, charPositions_cons, charPositions_cons, ih,
      List.append_assoc, List.map_append, List.map_map, List.length_cons]
    have : (Nat.succ ∘ (· + u.length)) = (· + (u.length + 1)) := by
      funext i
      simp [Function.comp]
      omega
    rw [this]

theorem charPositions_eq_nil_of_count_zero (s : List Char) (c : Char)
    (h : s.count c = 0) : charPositions s c = [] := by
  have := charPositions_length s c
  rw [h] at this
  exact List.length_eq_zero.mp this

theorem rfindChar_full (s : List Char) (c : Char) :
    rfindChar s c (s.length : ℤ) = (charPositions s c).getLast? := by
  rw [rfindChar_eq_getLast?]
  congr 1
  refine List.filter_eq_self.mpr ?_
  intro i hi
  have : i < s.length := List.mem_range.mp (List.mem_filter.mp hi).1
  unfold rfindInBound
  have h2 : (i : ℤ) ≤ (s.length : ℤ) := by omega
  simp [h2]

/-- A name of the form `root ++ "_" ++ digits` has exactly `root` before
its last underscore. -/
theorem shortNameOf_append_digits (root ds : List Char)
    (hds : ∀ c ∈ ds, isDigitChar c = true) :
    shortNameOf (root ++ '_' :: ds) = root := by
  have hcnt : ds.count '_' = 0 := by
    rw [List.count_eq_zero]
    intro hmem
    exact absurd (hds '_' hmem) (by decide)
  have hpos : charPositions (root ++ '_' :: ds) '_' =
      charPositions root '_' ++ [root.length] := by
    rw [charPositions_append, charPositions_cons,
      charPositions_eq_nil_of_count_zero ds '_' hcnt]
    simp
  unfold shortNameOf
  rw [rfindChar_full, hpos, List.getLast?_concat]
  exact List.take_left root ('_' :: ds)

theorem drop_root_underscore (root ds : List Char) :
    (root ++ '_' :: ds).drop (root.length + 1) = ds := by
  have : root ++ '_' :: ds = (root ++ ['_']) ++ ds := by simp
  rw [this]
  have hlen : root.length + 1 = (root ++ ['_']).length := by simp
  rw [hlen, List.drop_left]

theorem alistLookup_append_of_left_none {β : Type} (l1 l2 : List (List Char × β))
    (k : List Char) (h : alistLookup l1 k = none) :
    alistLookup (l1 ++ l2) k = alistLookup l2 k := by
  induction l1 with
  | nil => simp [alistLookup]
  | cons hd tl ih =>
    obtain ⟨n, w⟩ := hd
    by_cases hn : n = k
    · rw [alistLookup, if_pos hn] at h
      exact absurd h (by simp)
    · rw [alistLookup, if_neg hn] at h
      rw [List.cons_append, alistLookup, if_neg hn]
      exact ih h

theorem alistLookup_append_of_left_some {β : Type} (l1 l2 : List (List Char × β))
    (k : List Char) (v : β) (h : alistLookup l1 k = some v) :
    alistLookup (l1 ++ l2) k = some v := by
  induction l1 with
  | nil => simp [alistLookup] at h
  | cons hd tl ih =>
    obtain ⟨n, w⟩ := hd
    by_cases hn : n = k
    · rw [alistLookup, if_pos hn] at h
      rw [List.cons_append, alistLookup, if_pos hn]
      exact h
    · rw [alistLookup, if_neg hn] at h
      rw [List.cons_append, alistLookup, if_neg hn]
      exact ih h

theorem alistLookup_some_key_mem {β : Type} (l : List (List Char × β))
    (k : List Char) (v : β) (h : alistLookup l k = some v) : k ∈ l.map Prod.fst := by
  induction l with
  | nil => simp [alistLookup] at h
  | cons hd tl ih =>
    obtain ⟨n, w⟩ := hd
    by_cases hn : n = k
    · subst hn
      rw [List.map_cons]
      exact List.mem_cons_self _ _
    · rw [alistLookup, if_neg hn] at h
      rw [List.map_cons]
      exact List.mem_cons_of_mem _ (ih h)

theorem alistSet_of_absent {β : Type} (l : List (List Char × β)) (k : List Char)
    (v : β) (h : alistLookup l k = none) : alistSet l k v = l ++ [(k, v)] := by
  induction l with
  | nil => simp [alistSet]
  | cons hd tl ih =>
    obtain ⟨n, w⟩ := hd
    by_cases hn : n = k
    · rw [alistLookup, if_pos hn] at h
      exact absurd h (by simp)
    · rw [alistLookup, if_neg hn] at h
      rw [alistSet, if_neg hn, ih h, List.cons_append]

/-- Writing a batch of registers with fresh, pairwise-distinct names
appends them in order. -/
theorem foldl_writeMemory_fresh (f : ℕ → List Char) (g : ℕ → List ℕ) :
    ∀ (xs : List ℕ) (acc : Registers),
    (∀ x ∈ xs, alistLookup acc (f x) = none) →
    List.Pairwise (fun x y => f x ≠ f y) xs →
    xs.foldl (fun regs x => writeMemory regs (f x) (g x)) acc =
      acc ++ xs.map (fun x => (f x, g x)) := by
  intro xs
  induction xs with
  | nil => intro acc _ _; simp
  | cons x xs ih =>
    intro acc hfresh hpair
    rw [List.foldl_cons, List.map_cons]
    have h1 : writeMemory acc (f x) (g x) = acc ++ [(f x, g x)] :=
      alistSet_of_absent acc (f x) (g x) (hfresh x (List.mem_cons_self x xs))
    rw [h1]
    rw [ih (acc ++ [(f x, g x)]) ?_ (List.Pairwise.of_cons hpair)]
    · simp
    · intro y hy
      rw [alistLookup_append_of_left_none _ _ _ (hfresh y (List.mem_cons_of_mem x hy))]
      have hne : f x ≠ f y := (List.pairwise_cons.mp hpair).1 y hy
      simp [alistLookup, hne]

/-- Looking up the `j`-th written register name in the appended batch. -/
theorem alistLookup_map_of_pairwise (f : ℕ → List Char) (g : ℕ → List ℕ) :
    ∀ (xs : List ℕ), List.Pairwise (fun x y => f x ≠ f y) xs →
    ∀ j ∈ xs, alistLookup (xs.map (fun x => (f x, g x))) (f j) = some (g j) := by
  intro xs
  induction xs with
  | nil => intro _ j hj; simp at hj
  | cons x xs ih =>
    intro hpair j hj
    rw [List.map_cons]
    rcases List.mem_cons.mp hj with h | h
    · subst h
      simp [alistLookup]
    · have hne : f x ≠ f j := (List.pairwise_cons.mp hpair).1 j h
      rw [alistLookup, if_neg hne]
      exact ih (List.Pairwise.of_cons hpair) j h

/-- natToChars is injective (it parses back to its argument). -/
theorem natToChars_injective (m n : ℕ) (h : natToChars m = natToChars n) : m = n := by
  have := digitsVal_natToChars m
  rw [h, digitsVal_natToChars] at this
  omega

theorem insertByKey_of_lt (p : List Char × ℤ) (l : List (List Char × ℤ))
    (h : ∀ q ∈ l, p.2 < q.2) : insertByKey p l = p :: l := by
  cases l with
  | nil => rfl
  | cons q rest =>
    unfold insertByKey
    rw [if_pos (h q (List.mem_cons_self q rest))]

theorem sortByKey_of_sorted (l : List (List Char × ℤ))
    (h : List.Pairwise (fun p q => p.2 < q.2) l) : sortByKey l = l := by
  induction l with
  | nil => rfl
  | cons p rest ih =>
    unfold sortByKey
    rw [List.foldr_cons]
    have h2 : sortByKey rest = rest := ih (List.Pairwise.of_cons h)
    unfold sortByKey at h2
    rw [h2]
    exact insertByKey_of_lt p rest (List.pairwise_cons.mp h).1

theorem map_getD_range_eq_take (v : List ℕ) (w : ℕ) (h : w ≤ v.length) :
    (List.range w).map (fun a => v.getD a 0) = v.take w := by
  apply List.ext_getElem
  · simp [h]
  · intro i h1 h2
    simp only [List.getElem_map, List.getElem_range, List.getElem_take]
    have hi : i < w := by simpa using h1
    have hiv : i < v.length := lt_of_lt_of_le hi h
    rw [List.getD_eq_getElem v 0 hiv]

/-- Concatenating the `W`-wide slices of a flat vector of length `k * W`
recovers the vector. -/
theorem slices_join (w : ℕ) :
    ∀ (k : ℕ) (v : List ℕ), v.length = k * w →
    ((List.range k).map (fun x =>
      (List.range w).map (fun a => v.getD (w * x + a) 0))).flatten = v := by
  intro k
  induction k with
  | zero =>
    intro v hv
    rw [Nat.zero_mul] at hv
    have h0 : v = [] := List.length_eq_zero.mp hv
    subst h0
    simp
  | succ k ih =>
    intro v hv
    rw [List.range_succ_eq_map, List.map_cons, List.flatten_cons, List.map_map]
    have hfirst : (List.range w).map (fun a => v.getD (w * 0 + a) 0) = v.take w := by
      have : (fun a => v.getD (w * 0 + a) 0) = (fun a => v.getD a 0) := by
        funext a; simp
      rw [this]
      exact map_getD_range_eq_take v w
        (by rw [hv]; exact Nat.le_mul_of_pos_left w (by omega))
    rw [hfirst]
    have hrest : ((List.range k).map
        ((fun x => (List.range w).map (fun a => v.getD (w * x + a) 0)) ∘ Nat.succ)) =
        (List.range k).map (fun x =>
          (List.range w).map (fun a => (v.drop w).getD (w * x + a) 0)) := by
      apply List.map_congr_left
      intro x _
      simp only [Function.comp]
      apply List.map_congr_left
      intro a _
      have h1 : w * Nat.succ x + a = w + (w * x + a) := by
        rw [Nat.succ_eq_add_one]
        ring
      rw [h1]
      simp only [List.getD]
      rw [List.get?_drop]
    rw [hrest, ih (v.drop w) (by rw [List.length_drop, hv, Nat.succ_mul]; omega)]
    exact List.take_append_drop w v

theorem mapM_map_eq_some {α γ β : Type} (nm : α → γ) (f : γ → Option β) (g : α → β)
    (xs : List α) (h : ∀ x ∈ xs, f (nm x) = some (g x)) :
    (xs.map nm).mapM f = some (xs.map g) := by
  induction xs with
  | nil => rfl
  | cons x xs ih =>
    rw [List.map_cons, List.map_cons, List.mapM_cons,
      h x (List.mem_cons_self x xs), ih (fun y hy => h y (List.mem_cons_of_mem x hy))]
    rfl

theorem fold_read_concat (regs : Registers) (val : (List Char × ℤ) → List ℕ) :
    ∀ (ps : List (List Char × ℤ)) (init : List ℕ),
    (∀ p ∈ ps, regLookup regs p.1 = some (val p)) →
    ps.foldl (fun (acc : Registers × List ℕ) p =>
      let r := readMemory acc.1 p.1
      (r.1, acc.2 ++ r.2)) (regs, init) = (regs, init ++ (ps.map val).flatten) := by
  intro ps
  induction ps with
  | nil => intro init _; simp
  | cons p ps ih =>
    intro init h
    rw [List.foldl_cons]
    have hread : readMemory regs p.1 = (regs, val p) := by
      unfold readMemory
      rw [h p (List.mem_cons_self p ps)]
    simp only [hread]
    rw [ih (init ++ val p) (fun q hq => h q (List.mem_cons_of_mem p hq))]
    simp

/-- C7: writing a flat vector of length `k * W` into `root_<x>` slices and
reading it back through the matching/sorting path returns exactly the
vector; a length that is not a multiple of `W` makes the write fail.  The
register file must hold no other register matching `root_<n>` (the
hypothesis holds in particular for a fresh runtime). -/
theorem paramMemory_roundtrip (st : FunctionalModel) (root : List Char)
    (v : List ℕ) (k : ℕ)
    (hfresh : ∀ n ∈ st.registers.map Prod.fst, shortNameOf n ≠ root) :
    (v.length = k * multiRegisterWidth →
      ∃ st2, setParamMemory st root v = some st2 ∧ getParamMemory st2 root = some v) ∧
    (v.length % multiRegisterWidth ≠ 0 → setParamMemory st root v = none) := by
  constructor
  · intro hlen
    set W := multiRegisterWidth with hW
    have hW0 : 0 < W := by norm_num [hW, multiRegisterWidth]
    set name : ℕ → List Char := fun x => root ++ '_' :: natToChars x with hname
    set slice : ℕ → List ℕ := fun x =>
      (List.range W).map (fun a => v.getD (W * x + a) 0) with hslice
    have hshort : ∀ x : ℕ, shortNameOf (name x) = root := fun x =>
      shortNameOf_append_digits root (natToChars x) (natToChars_all_digits x)
    have hinj : ∀ x y : ℕ, name x = name y → x = y := by
      intro x y hxy
      rw [hname] at hxy
      simp only [List.append_cancel_left_eq, List.cons.injEq, true_and] at hxy
      exact natToChars_injective x y hxy
    have hnone : ∀ x : ℕ, alistLookup st.registers (name x) = none := by
      intro x
      cases hl : alistLookup st.registers (name x) with
      | none => rfl
      | some w =>
        exact absurd (hshort x)
          (hfresh (name x) (alistLookup_some_key_mem _ _ _ hl))
    have hpairname : List.Pairwise (fun x y => name x ≠ name y) (List.range k) :=
      (List.pairwise_lt_range k).imp
        (fun {a b} hlt heq => absurd (hinj a b heq) (by omega))
    have hdiv : v.length / W = k := by
      rw [hlen]
      exact Nat.mul_div_cancel k hW0
    have hmod : ¬ (v.length % W ≠ 0) := by
      rw [hlen]
      simp [Nat.mul_mod_left]
    have hset : setParamMemory st root v = some
        { st with
          registers :=
            st.registers ++ (List.range k).map (fun x => (name x, slice x)) } := by
      unfold setParamMemory
      rw [if_neg hmod, hdiv]
      rw [foldl_writeMemory_fresh name slice (List.range k) st.registers
        (fun x _ => hnone x) hpairname]
    refine ⟨_, hset, ?_⟩
    -- read back
    set regs2 : Registers :=
      st.registers ++ (List.range k).map (fun x => (name x, slice x)) with hregs2
    have hkeys : regs2.map Prod.fst =
        st.registers.map Prod.fst ++ (List.range k).map name := by
      rw [hregs2, List.map_append, List.map_map]
      rfl
    have hmatch : getMatching3ParamRegisterNames
        { st with registers := regs2 } root = (List.range k).map name := by
      unfold getMatching3ParamRegisterNames
      show (regs2.map Prod.fst).filter (fun n => decide (shortNameOf n = root)) = _
      rw [hkeys, List.filter_append]
      have h1 : (st.registers.map Prod.fst).filter
          (fun n => decide (shortNameOf n = root)) = [] := by
        rw [List.filter_eq_nil_iff]
        intro n hn
        simp [hfresh n hn]
      have h2 : ((List.range k).map name).filter
          (fun n => decide (shortNameOf n = root)) = (List.range k).map name := by
        refine List.filter_eq_self.mpr ?_
        intro n hn
        obtain ⟨x, _, rfl⟩ := List.mem_map.mp hn
        simp [hshort x]
      rw [h1, h2, List.nil_append]
    have hlookup2 : ∀ x ∈ List.range k, regLookup regs2 (name x) = some (slice x) := by
      intro x hx
      unfold regLookup
      rw [hregs2, alistLookup_append_of_left_none _ _ _ (hnone x)]
      exact alistLookup_map_of_pairwise name slice (List.range k) hpairname x hx
    have hparse : ∀ x ∈ List.range k,
        (if root.length + 1 ≤ (name x).length then
          (stoiInt ((name x).drop (root.length + 1))).map (fun idx => (name x, idx))
        else none) = some (name x, (x : ℤ)) := by
      intro x _
      have hlen2 : root.length + 1 ≤ (name x).length := by
        rw [hname]
        simp only [List.length_append, List.length_cons]
        omega
      rw [if_pos hlen2, hname]
      rw [drop_root_underscore root (natToChars x), stoiInt_natToChars x]
      rfl
    unfold getParamMemory
    rw [hmatch]
    rw [mapM_map_eq_some name _ (fun x => (name x, (x : ℤ))) (List.range k) hparse]
    simp only [Option.map_some']
    have hsorted : sortByKey ((List.range k).map (fun x => (name x, (x : ℤ)))) =
        (List.range k).map (fun x => (name x, (x : ℤ))) := by
      apply sortByKey_of_sorted
      rw [List.pairwise_map]
      exact (List.pairwise_lt_range k).imp (fun {a b} hlt => by simp; omega)
    rw [hsorted]
    have hfold := fold_read_concat regs2 (fun p => slice p.2.toNat)
      ((List.range k).map (fun x => (name x, (x : ℤ)))) []
      (by
        intro p hp
        obtain ⟨x, hx, rfl⟩ := List.mem_map.mp hp
        simp only [Int.toNat_ofNat]
        exact hlookup2 x hx)
    simp only [hfold]
    rw [List.map_map]
    have hslices : ((List.range k).map
        ((fun p => slice p.2.toNat) ∘ (fun x => (name x, (x : ℤ))))).flatten = v := by
      have : ((fun (p : List Char × ℤ) => slice p.2.toNat) ∘
          (fun x => (name x, (x : ℤ)))) = slice := by
        funext x
        simp
      rw [this, hslice]
      exact slices_join W k v hlen
    rw [hslices, List.nil_append]
  · intro hmod
    unfold setParamMemory
    rw [if_pos hmod]

/-- C7 witness: the round trip at a fresh model, `root = p`,
`v = [5, 5, ...]` of length `1 * 8192`, plus the failure branch for a
vector of length 100. -/
theorem paramMemory_roundtrip_witness :
    ((List.replicate multiRegisterWidth 5).length = 1 * multiRegisterWidth →
      ∃ st2, setParamMemory {} ("p".toList) (List.replicate multiRegisterWidth 5)
          = some st2 ∧
        getParamMemory st2 ("p".toList) = some (List.replicate multiRegisterWidth 5)) ∧
    ((List.replicate multiRegisterWidth 5).length % multiRegisterWidth ≠ 0 →
      setParamMemory {} ("p".toList) (List.replicate multiRegisterWidth 5) = none) :=
  paramMemory_roundtrip {} ("p".toList) (List.replicate multiRegisterWidth 5) 1
    (by intro n hn; simp at hn)

/-- The C3 failing input: a consistent memory state with modulus chain
`[97]` and one iNTT twiddle row, `"1" ↦ [[5]]`. -/
def c3State : FunctionalModel :=
  { modulus_chain := [97], twiddle_intt := [("1".toList, [[5]])] }

/-- C3: loading the dump of `c3State` into a fresh model does not restore
it — it does not even produce a state.  The dumped line
`intt,1,0,5` default-inserts the key `"1"`, then resizes and assigns the
parsed row into a local copy of the map entry (`auto intt_values = ...`,
p_isa_functional_model.h line 870) whose off-by-one resize
(`size < stoi` instead of `≤`) leaves index 0 out of range for the empty
copy, so the load fails (and the parsed values would have been discarded
with the copy in any case), refuting `load(dump(M)) == M`. -/
theorem dump_load_intt_bug :
    readMemoryFromStream {} (dumpMemoryToStream c3State) = none ∧
    readMemoryFromStream {} (dumpMemoryToStream c3State) ≠ some c3State := by
  decide

/-! ## Lemmas: instruction CSV round trip (claim C4) -/

theorem splitLocation_concat (l : List Char) :
    (splitLocation l).1 ++ (splitLocation l).2 = l := by
  unfold splitLocation
  by_cases h : l.count '_' = 0
  · simp [h]
  · simp [h, List.take_append_drop]

theorem takeWhile_all (p : Char → Bool) (a : List Char)
    (h : ∀ x ∈ a, p x = true) : a.takeWhile p = a := by
  induction a with
  | nil => rfl
  | cons x xs ih =>
    have hx : p x = true := h x (List.mem_cons_self _ _)
    simp [List.takeWhile_cons, hx, ih (fun y hy => h y (List.mem_cons_of_mem _ hy))]

theorem takeWhile_append_stop (p : Char → Bool) (a : List Char) (c : Char) (d : List Char)
    (ha : ∀ x ∈ a, p x = true) (hc : p c = false) :
    (a ++ c :: d).takeWhile p = a := by
  induction a with
  | nil => simp [List.takeWhile_cons, hc]
  | cons x xs ih =>
    have hx : p x = true := ha x (List.mem_cons_self _ _)
    simp [List.takeWhile_cons, hx, ih (fun y hy => ha y (List.mem_cons_of_mem _ hy))]

theorem dropWhile_append_stop (p : Char → Bool) (a : List Char) (c : Char) (d : List Char)
    (ha : ∀ x ∈ a, p x = true) (hc : p c = false) :
    (a ++ c :: d).dropWhile p = c :: d := by
  induction a with
  | nil => simp [List.dropWhile_cons, hc]
  | cons x xs ih =>
    have hx : p x = true := ha x (List.mem_cons_self _ _)
    simp [List.dropWhile_cons, hx, ih (fun y hy => ha y (List.mem_cons_of_mem _ hy))]

theorem mem_intToChars (z : ℤ) (c : Char) (h : c ∈ intToChars z) :
    c = '-' ∨ isDigitChar c = true := by
  unfold intToChars at h
  by_cases hz : z < 0
  · rw [if_pos hz] at h
    rcases List.mem_cons.mp h with h1 | h2
    · exact Or.inl h1
    · exact Or.inr (natToChars_all_digits _ c h2)
  · rw [if_neg hz] at h
    exact Or.inr (natToChars_all_digits _ c h)

theorem intToChars_ne_nil (z : ℤ) : intToChars z ≠ [] := by
  unfold intToChars
  by_cases hz : z < 0
  · simp [hz]
  · simp [hz, natToChars_ne_nil]

theorem intToChars_no_comma (z : ℤ) : ∀ c ∈ intToChars z, ¬(c = ',') := by
  intro c hc heq
  subst heq
  rcases mem_intToChars z ',' hc with h | h
  · exact absurd h (by decide)
  · exact absurd h (by decide)

theorem intToChars_no_space (z : ℤ) : ∀ c ∈ intToChars z, ¬(c = ' ') := by
  intro c hc heq
  subst heq
  rcases mem_intToChars z ' ' hc with h | h
  · exact absurd h (by decide)
  · exact absurd h (by decide)

theorem intToChars_no_underscore (z : ℤ) : ∀ c ∈ intToChars z, ¬(c = '_') := by
  intro c hc heq
  subst heq
  rcases mem_intToChars z '_' hc with h | h
  · exact absurd h (by decide)
  · exact absurd h (by decide)

theorem printOperand_no_comma (ob : Bool) (op : Operand)
    (h : ∀ c ∈ op.location, ¬(c = ',')) :
    ∀ c ∈ printOperand ob op, ¬(c = ',') := by
  intro c hc
  unfold printOperand at hc
  rcases List.mem_append.mp hc with h1 | h2
  · exact h c h1
  · by_cases hcond : (!op.immediate && ob) = true
    · rw [if_pos hcond] at h2
      rcases List.mem_cons.mp h2 with h3 | h3
      · intro heq; rw [h3] at heq; exact absurd heq (by decide)
      rcases List.mem_cons.mp h3 with h4 | h4
      · intro heq; rw [h4] at heq; exact absurd heq (by decide)
      rcases List.mem_append.mp h4 with h5 | h5
      · exact intToChars_no_comma _ c h5
      · intro heq
        have : c = ')' := by simpa using h5
        rw [this] at heq; exact absurd heq (by decide)
    · rw [if_neg hcond] at h2
      simp at h2

theorem stoiInt_cons_space (s : List Char) : stoiInt (' ' :: s) = stoiInt s := by
  unfold stoiInt
  rw [List.dropWhile_cons]
  norm_num

theorem stoiInt_intToChars (z : ℤ) : stoiInt (intToChars z) = some z := by
  by_cases hz : z < 0
  · have h1 : intToChars z = '-' :: natToChars (-z).toNat := if_pos hz
    rw [h1]
    have h2 : stoiInt ('-' :: natToChars (-z).toNat)
        = (parseDigits (natToChars (-z).toNat)).map (fun n => -(n : ℤ)) := rfl
    rw [h2, parseDigits_natToChars]
    simp
    omega
  · have h1 : intToChars z = natToChars z.toNat := if_neg hz
    rw [h1, stoiInt_natToChars]
    rw [Int.toNat_of_nonneg (by omega)]

theorem stoiInt_space_int (z : ℤ) : stoiInt (' ' :: intToChars z) = some z := by
  rw [stoiInt_cons_space, stoiInt_intToChars]

theorem whiteSpaceRemoved_space_cons (s : List Char) :
    whiteSpaceRemoved (' ' :: s) = whiteSpaceRemoved s := by
  simp [whiteSpaceRemoved]

theorem whiteSpaceRemoved_clean (s : List Char) (h : ∀ c ∈ s, ¬(c = ' ')) :
    whiteSpaceRemoved s = s := by
  unfold whiteSpaceRemoved
  exact List.filter_eq_self.mpr (fun a ha => by simp [h a ha])

theorem cppSplit_no_delim (a : List Char) (d : Char) (h : ∀ c ∈ a, ¬(c = d)) :
    cppSplit a d = if a = [] then [] else [a] := by
  induction a with
  | nil => rfl
  | cons x xs ih =>
    have hx : (x == d) = false := by simp [h x (List.mem_cons_self _ _)]
    have ih2 := ih (fun y hy => h y (List.mem_cons_of_mem _ hy))
    by_cases hxs : xs = []
    · subst hxs; simp [cppSplit, hx]
    · rw [if_neg (by simp)]
      simp only [cppSplit, hx]
      rw [ih2, if_neg hxs]
      rfl

theorem cppSplit_append_delim (a s : List Char) (d : Char)
    (h : ∀ c ∈ a, ¬(c = d)) :
    cppSplit (a ++ d :: s) d = a :: cppSplit s d := by
  induction a with
  | nil => simp [cppSplit]
  | cons x xs ih =>
    have hx : (x == d) = false := by simp [h x (List.mem_cons_self _ _)]
    have ih2 := ih (fun y hy => h y (List.mem_cons_of_mem _ hy))
    rw [List.cons_append]
    simp only [cppSplit, hx]
    rw [ih2]
    rfl

theorem cppSplit_sepJoin (f0 : List Char) (rest : List (List Char))
    (h0ne : f0 ≠ []) (h0 : ∀ c ∈ f0, ¬(c = ','))
    (hr : ∀ f ∈ rest, ∀ c ∈ f, ¬(c = ',')) :
    cppSplit (sepJoin (f0 :: rest)) ',' = f0 :: rest.map (fun f => ' ' :: f) := by
  induction rest generalizing f0 with
  | nil => simp [sepJoin, cppSplit_no_delim f0 ',' h0, h0ne]
  | cons f1 rs ih =>
    have hstep : sepJoin (f0 :: f1 :: rs) = f0 ++ ',' :: ' ' :: sepJoin (f1 :: rs) := rfl
    have hsp : ' ' :: sepJoin (f1 :: rs) = sepJoin ((' ' :: f1) :: rs) := by
      cases rs with
      | nil => rfl
      | cons a b => rfl
    have h0x : ∀ c ∈ ' ' :: f1, ¬(c = ',') := by
      intro c hc
      rcases List.mem_cons.mp hc with h1 | h1
      · rw [h1]; decide
      · exact hr f1 (List.mem_cons_self _ _) c h1
    have hrx : ∀ f ∈ rs, ∀ c ∈ f, ¬(c = ',') :=
      fun f hf => hr f (List.mem_cons_of_mem _ hf)
    rw [hstep, cppSplit_append_delim f0 _ ',' h0, hsp,
        ih (' ' :: f1) (by simp) h0x hrx]
    simp

theorem firstWord_space_cons (s : List Char) : firstWord (' ' :: s) = firstWord s := by
  simp [firstWord, List.dropWhile_cons]

theorem afterFirstWord_space_cons (s : List Char) :
    afterFirstWord (' ' :: s) = afterFirstWord s := by
  simp [afterFirstWord, List.dropWhile_cons]

theorem firstWord_decomp (a t : List Char) (hne : a ≠ []) (h : ∀ c ∈ a, ¬(c = ' ')) :
    firstWord (a ++ ' ' :: t) = a := by
  unfold firstWord
  cases a with
  | nil => exact absurd rfl hne
  | cons x xs =>
    have hx : (x == ' ') = false := by simp [h x (List.mem_cons_self _ _)]
    rw [List.cons_append, List.dropWhile_cons, if_neg (by simp [hx]), ← List.cons_append]
    exact takeWhile_append_stop _ _ _ _
      (fun y hy => by simp [h y hy]) (by decide)

theorem afterFirstWord_decomp (a t : List Char) (hne : a ≠ [])
    (h : ∀ c ∈ a, ¬(c = ' ')) :
    afterFirstWord (a ++ ' ' :: t) = ' ' :: t := by
  unfold afterFirstWord
  cases a with
  | nil => exact absurd rfl hne
  | cons x xs =>
    have hx : (x == ' ') = false := by simp [h x (List.mem_cons_self _ _)]
    rw [List.cons_append, List.dropWhile_cons, if_neg (by simp [hx]), ← List.cons_append]
    exact dropWhile_append_stop _ _ _ _
      (fun y hy => by simp [h y hy]) (by decide)

theorem firstWord_all_clean (a : List Char) (h : ∀ c ∈ a, ¬(c = ' ')) :
    firstWord a = a := by
  unfold firstWord
  cases a with
  | nil => rfl
  | cons x xs =>
    have hx : (x == ' ') = false := by simp [h x (List.mem_cons_self _ _)]
    rw [List.dropWhile_cons, if_neg (by simp [hx])]
    exact takeWhile_all _ _ (fun y hy => by simp [h y hy])

theorem operandOfToken_print (op : Operand) (h : goodReg op) :
    operandOfToken (' ' :: printOperand true op) = some op := by
  obtain ⟨⟨hne, hcl⟩, him, hbk⟩ := h
  obtain ⟨b, hb⟩ := Option.ne_none_iff_exists'.mp hbk
  have hpr : printOperand true op = op.location ++ ' ' :: '(' :: (intToChars b ++ [')']) := by
    unfold printOperand
    rw [if_pos (by simp [him]), hb]
    rfl
  have hcl2 : ∀ c ∈ op.location, ¬(c = ' ') := fun c hc => (hcl c hc).2
  have hw : firstWord (' ' :: printOperand true op) = op.location := by
    rw [firstWord_space_cons, hpr, firstWord_decomp op.location _ hne hcl2]
  have ha : afterFirstWord (' ' :: printOperand true op)
      = ' ' :: '(' :: (intToChars b ++ [')']) := by
    rw [afterFirstWord_space_cons, hpr, afterFirstWord_decomp op.location _ hne hcl2]
  have hbank : firstWord (afterFirstWord (' ' :: printOperand true op))
      = '(' :: (intToChars b ++ [')']) := by
    rw [ha, firstWord_space_cons]
    apply firstWord_all_clean
    intro c hc
    rcases List.mem_cons.mp hc with h1 | h1
    · rw [h1]; decide
    rcases List.mem_append.mp h1 with h2 | h2
    · exact intToChars_no_space b c h2
    · have hc2 : c = ')' := by simpa using h2
      rw [hc2]; decide
  have hlenpos : 0 < (intToChars b).length :=
    List.length_pos.mpr (intToChars_ne_nil b)
  have hlen : ('(' :: (intToChars b ++ [')'])).length = (intToChars b).length + 2 := by
    simp
  simp only [operandOfToken, hbank, hw]
  rw [if_pos (by rw [hlen]; omega)]
  have hdrop : ('(' :: (intToChars b ++ [')'])).drop 1 = intToChars b ++ [')'] := rfl
  have htake : (intToChars b ++ [')']).take (('(' :: (intToChars b ++ [')'])).length - 2)
      = intToChars b := by
    rw [hlen]
    have h2 : (intToChars b).length + 2 - 2 = (intToChars b).length := by omega
    rw [h2, List.take_left]
  rw [hdrop, htake, stoiInt_intToChars, splitLocation_concat, Option.map_some']
  rw [← hb, ← him]

theorem wparamOfToken_print (w : WParam) :
    wparamOfToken (' ' :: 'w' :: '_' :: (intToChars w.residual ++
      '_' :: (intToChars w.stage ++ '_' :: intToChars w.block))) = some w := by
  have hp : ∀ z : ℤ, ∀ c ∈ intToChars z, (fun c => !(c == '_')) c = true := by
    intro z c hc; simp [intToChars_no_underscore z c hc]
  have e1 : (((' ' :: 'w' :: '_' :: (intToChars w.residual ++
      '_' :: (intToChars w.stage ++ '_' :: intToChars w.block))).dropWhile
        (fun c => !(c == '_'))).drop 1)
      = intToChars w.residual ++ '_' :: (intToChars w.stage ++ '_' :: intToChars w.block) :=
    rfl
  have e2 : (intToChars w.residual ++ '_' :: (intToChars w.stage ++
      '_' :: intToChars w.block)).takeWhile (fun c => !(c == '_'))
      = intToChars w.residual :=
    takeWhile_append_stop _ _ _ _ (hp _) (by decide)
  have e3 : (((intToChars w.residual ++ '_' :: (intToChars w.stage ++
      '_' :: intToChars w.block)).dropWhile (fun c => !(c == '_'))).drop 1)
      = intToChars w.stage ++ '_' :: intToChars w.block := by
    rw [dropWhile_append_stop _ _ _ _ (hp _) (by decide)]
    rfl
  have e4 : (intToChars w.stage ++ '_' :: intToChars w.block).takeWhile
      (fun c => !(c == '_')) = intToChars w.stage :=
    takeWhile_append_stop _ _ _ _ (hp _) (by decide)
  have e5 : (((intToChars w.stage ++ '_' :: intToChars w.block).dropWhile
      (fun c => !(c == '_'))).drop 1) = intToChars w.block := by
    rw [dropWhile_append_stop _ _ _ _ (hp _) (by decide)]
    rfl
  simp only [wparamOfToken, e1, e2, e3, e4, e5, stoiInt_intToChars, Option.some_bind,
    Option.map_some']

/-- Parsing the printed form of an `Add(pmd, dst, s1, s2, res)`
instruction recovers it. -/
theorem parse_print_add (pmd : ℤ) (dst s1 s2 : Operand) (res : ℤ)
    (hdst : goodReg dst) (hs1 : goodReg s1) (hs2 : goodReg s2) :
    parseLine (printInstr true (mkArith ("add".toList) pmd dst s1 s2 res))
      = some (mkArith ("add".toList) pmd dst s1 s2 res) := by
  have hprint : printInstr true (mkArith ("add".toList) pmd dst s1 s2 res)
      = sepJoin [intToChars pmd, "add".toList ++ [' '], printOperand true dst,
          printOperand true s1, printOperand true s2, intToChars res] := rfl
  have hsplit : cppSplit (sepJoin [intToChars pmd, "add".toList ++ [' '],
      printOperand true dst, printOperand true s1, printOperand true s2, intToChars res]) ','
      = [intToChars pmd, ' ' :: ("add".toList ++ [' ']), ' ' :: printOperand true dst,
         ' ' :: printOperand true s1, ' ' :: printOperand true s2, ' ' :: intToChars res] := by
    rw [cppSplit_sepJoin _ _ (intToChars_ne_nil pmd) (intToChars_no_comma pmd) ?hr]
    case hr =>
      intro f hf
      simp only [List.mem_cons, List.not_mem_nil, or_false] at hf
      rcases hf with rfl | rfl | rfl | rfl | rfl
      · intro c hc; revert hc; revert c; decide
      · exact printOperand_no_comma true dst (fun c hc => (hdst.1.2 c hc).1)
      · exact printOperand_no_comma true s1 (fun c hc => (hs1.1.2 c hc).1)
      · exact printOperand_no_comma true s2 (fun c hc => (hs2.1.2 c hc).1)
      · exact intToChars_no_comma res
    rfl
  have hname : whiteSpaceRemoved (' ' :: ("add".toList ++ [' '])) = "add".toList := by
    decide
  have hop1 : operandOfToken (' ' :: printOperand true dst) = some dst :=
    operandOfToken_print dst hdst
  have hop2 : operandOfToken (' ' :: printOperand true s1) = some s1 :=
    operandOfToken_print s1 hs1
  have hop3 : operandOfToken (' ' :: printOperand true s2) = some s2 :=
    operandOfToken_print s2 hs2
  show parseInstruction (cppSplit (printInstr true (mkArith ("add".toList) pmd dst s1 s2 res)) ',')
      = some (mkArith ("add".toList) pmd dst s1 s2 res)
  rw [hprint, hsplit]
  simp only [parseInstruction, List.getElem?_cons_succ, List.getElem?_cons_zero,
    Option.some_bind, hname]
  rw [show instructionMapLookup ("add".toList)
      = some (description_Add, ({ name := ("add".toList) } : Instr)) from rfl]
  simp only [Option.some_bind]
  rw [if_pos (by simp [description_Add])]
  simp only [description_Add, List.zip_cons_cons, List.zip_nil_left, List.zip_nil_right]
  simp only [List.foldlM_cons, List.foldlM_nil, parseComponent, hop1, hop2, hop3,
    stoiInt_intToChars, stoiInt_space_int, hname, Option.some_bind, Option.map_some',
    Option.pure_def]
  simp [mkArith]

/-- Parsing the printed form of an `Sub(pmd, dst, s1, s2, res)`
instruction recovers it. -/
theorem parse_print_sub (pmd : ℤ) (dst s1 s2 : Operand) (res : ℤ)
    (hdst : goodReg dst) (hs1 : goodReg s1) (hs2 : goodReg s2) :
    parseLine (printInstr true (mkArith ("sub".toList) pmd dst s1 s2 res))
      = some (mkArith ("sub".toList) pmd dst s1 s2 res) := by
  have hprint : printInstr true (mkArith ("sub".toList) pmd dst s1 s2 res)
      = sepJoin [intToChars pmd, "sub".toList ++ [' '], printOperand true dst,
          printOperand true s1, printOperand true s2, intToChars res] := rfl
  have hsplit : cppSplit (sepJoin [intToChars pmd, "sub".toList ++ [' '],
      printOperand true dst, printOperand true s1, printOperand true s2, intToChars res]) ','
      = [intToChars pmd, ' ' :: ("sub".toList ++ [' ']), ' ' :: printOperand true dst,
         ' ' :: printOperand true s1, ' ' :: printOperand true s2, ' ' :: intToChars res] := by
    rw [cppSplit_sepJoin _ _ (intToChars_ne_nil pmd) (intToChars_no_comma pmd) ?hr]
    case hr =>
      intro f hf
      simp only [List.mem_cons, List.not_mem_nil, or_false] at hf
      rcases hf with rfl | rfl | rfl | rfl | rfl
      · intro c hc; revert hc; revert c; decide
      · exact printOperand_no_comma true dst (fun c hc => (hdst.1.2 c hc).1)
      · exact printOperand_no_comma true s1 (fun c hc => (hs1.1.2 c hc).1)
      · exact printOperand_no_comma true s2 (fun c hc => (hs2.1.2 c hc).1)
      · exact intToChars_no_comma res
    rfl
  have hname : whiteSpaceRemoved (' ' :: ("sub".toList ++ [' '])) = "sub".toList := by
    decide
  have hop1 : operandOfToken (' ' :: printOperand true dst) = some dst :=
    operandOfToken_print dst hdst
  have hop2 : operandOfToken (' ' :: printOperand true s1) = some s1 :=
    operandOfToken_print s1 hs1
  have hop3 : operandOfToken (' ' :: printOperand true s2) = some s2 :=
    operandOfToken_print s2 hs2
  show parseInstruction (cppSplit (printInstr true (mkArith ("sub".toList) pmd dst s1 s2 res)) ',')
      = some (mkArith ("sub".toList) pmd dst s1 s2 res)
  rw [hprint, hsplit]
  simp only [parseInstruction, List.getElem?_cons_succ, List.getElem?_cons_zero,
    Option.some_bind, hname]
  rw [show instructionMapLookup ("sub".toList)
      = some (description_Sub, ({ name := ("sub".toList) } : Instr)) from rfl]
  simp only [Option.some_bind]
  rw [if_pos (by simp [description_Sub])]
  simp only [description_Sub, List.zip_cons_cons, List.zip_nil_left, List.zip_nil_right]
  simp only [List.foldlM_cons, List.foldlM_nil, parseComponent, hop1, hop2, hop3,
    stoiInt_intToChars, stoiInt_space_int, hname, Option.some_bind, Option.map_some',
    Option.pure_def]
  simp [mkArith]

/-- Parsing the printed form of an `Mul(pmd, dst, s1, s2, res)`
instruction recovers it. -/
theorem parse_print_mul (pmd : ℤ) (dst s1 s2 : Operand) (res : ℤ)
    (hdst : goodReg dst) (hs1 : goodReg s1) (hs2 : goodReg s2) :
    parseLine (printInstr true (mkArith ("mul".toList) pmd dst s1 s2 res))
      = some (mkArith ("mul".toList) pmd dst s1 s2 res) := by
  have hprint : printInstr true (mkArith ("mul".toList) pmd dst s1 s2 res)
      = sepJoin [intToChars pmd, "mul".toList ++ [' '], printOperand true dst,
          printOperand true s1, printOperand true s2, intToChars res] := rfl
  have hsplit : cppSplit (sepJoin [intToChars pmd, "mul".toList ++ [' '],
      printOperand true dst, printOperand true s1, printOperand true s2, intToChars res]) ','
      = [intToChars pmd, ' ' :: ("mul".toList ++ [' ']), ' ' :: printOperand true dst,
         ' ' :: printOperand true s1, ' ' :: printOperand true s2, ' ' :: intToChars res] := by
    rw [cppSplit_sepJoin _ _ (intToChars_ne_nil pmd) (intToChars_no_comma pmd) ?hr]
    case hr =>
      intro f hf
      simp only [List.mem_cons, List.not_mem_nil, or_false] at hf
      rcases hf with rfl | rfl | rfl | rfl | rfl
      · intro c hc; revert hc; revert c; decide
      · exact printOperand_no_comma true dst (fun c hc => (hdst.1.2 c hc).1)
      · exact printOperand_no_comma true s1 (fun c hc => (hs1.1.2 c hc).1)
      · exact printOperand_no_comma true s2 (fun c hc => (hs2.1.2 c hc).1)
      · exact intToChars_no_comma res
    rfl
  have hname : whiteSpaceRemoved (' ' :: ("mul".toList ++ [' '])) = "mul".toList := by
    decide
  have hop1 : operandOfToken (' ' :: printOperand true dst) = some dst :=
    operandOfToken_print dst hdst
  have hop2 : operandOfToken (' ' :: printOperand true s1) = some s1 :=
    operandOfToken_print s1 hs1
  have hop3 : operandOfToken (' ' :: printOperand true s2) = some s2 :=
    operandOfToken_print s2 hs2
  show parseInstruction (cppSplit (printInstr true (mkArith ("mul".toList) pmd dst s1 s2 res)) ',')
      = some (mkArith ("mul".toList) pmd dst s1 s2 res)
  rw [hprint, hsplit]
  simp only [parseInstruction, List.getElem?_cons_succ, List.getElem?_cons_zero,
    Option.some_bind, hname]
  rw [show instructionMapLookup ("mul".toList)
      = some (description_Mul, ({ name := ("mul".toList) } : Instr)) from rfl]
  simp only [Option.some_bind]
  rw [if_pos (by simp [description_Mul])]
  simp only [description_Mul, List.zip_cons_cons, List.zip_nil_left, List.zip_nil_right]
  simp only [List.foldlM_cons, List.foldlM_nil, parseComponent, hop1, hop2, hop3,
    stoiInt_intToChars, stoiInt_space_int, hname, Option.some_bind, Option.map_some',
    Option.pure_def]
  simp [mkArith]

/-- The printed `w_<res>_<stage>_<block>` field contains no comma. -/
theorem wfield_no_comma (w : WParam) :
    ∀ c ∈ ('w' :: '_' :: (intToChars w.residual ++
      '_' :: (intToChars w.stage ++ '_' :: intToChars w.block))), ¬(c = ',') := by
  intro c hc
  simp only [List.mem_cons, List.mem_append] at hc
  rcases hc with rfl | rfl | hc2 | rfl | hc2 | rfl | hc2
  · decide
  · decide
  · exact intToChars_no_comma _ c hc2
  · decide
  · exact intToChars_no_comma _ c hc2
  · decide
  · exact intToChars_no_comma _ c hc2

/-- Parsing the printed form of a `Mac(pmd, acc, s1, s2, res)` instruction
recovers it. -/
theorem parse_print_mac (pmd : ℤ) (acc s1 s2 : Operand) (res : ℤ)
    (hacc : goodReg acc) (hs1 : goodReg s1) (hs2 : goodReg s2) :
    parseLine (printInstr true (mkMac pmd acc s1 s2 res))
      = some (mkMac pmd acc s1 s2 res) := by
  have hprint : printInstr true (mkMac pmd acc s1 s2 res)
      = sepJoin [intToChars pmd, "mac".toList ++ [' '], printOperand true acc,
          printOperand true s1, printOperand true s2, intToChars res] := rfl
  have hsplit : cppSplit (sepJoin [intToChars pmd, "mac".toList ++ [' '],
      printOperand true acc, printOperand true s1, printOperand true s2, intToChars res]) ','
      = [intToChars pmd, ' ' :: ("mac".toList ++ [' ']), ' ' :: printOperand true acc,
         ' ' :: printOperand true s1, ' ' :: printOperand true s2, ' ' :: intToChars res] := by
    rw [cppSplit_sepJoin _ _ (intToChars_ne_nil pmd) (intToChars_no_comma pmd) ?hr]
    case hr =>
      intro f hf
      simp only [List.mem_cons, List.not_mem_nil, or_false] at hf
      rcases hf with rfl | rfl | rfl | rfl | rfl
      · intro c hc; revert hc; revert c; decide
      · exact printOperand_no_comma true acc (fun c hc => (hacc.1.2 c hc).1)
      · exact printOperand_no_comma true s1 (fun c hc => (hs1.1.2 c hc).1)
      · exact printOperand_no_comma true s2 (fun c hc => (hs2.1.2 c hc).1)
      · exact intToChars_no_comma res
    rfl
  have hname : whiteSpaceRemoved (' ' :: ("mac".toList ++ [' '])) = "mac".toList := by
    decide
  have hop1 : operandOfToken (' ' :: printOperand true acc) = some acc :=
    operandOfToken_print acc hacc
  have hop2 : operandOfToken (' ' :: printOperand true s1) = some s1 :=
    operandOfToken_print s1 hs1
  have hop3 : operandOfToken (' ' :: printOperand true s2) = some s2 :=
    operandOfToken_print s2 hs2
  show parseInstruction (cppSplit (printInstr true (mkMac pmd acc s1 s2 res)) ',')
      = some (mkMac pmd acc s1 s2 res)
  rw [hprint, hsplit]
  simp only [parseInstruction, List.getElem?_cons_succ, List.getElem?_cons_zero,
    Option.some_bind, hname]
  rw [show instructionMapLookup ("mac".toList)
      = some (description_Mac, ({ name := ("mac".toList) } : Instr)) from rfl]
  simp only [Option.some_bind]
  rw [if_pos (by simp [description_Mac])]
  simp only [description_Mac, List.zip_cons_cons, List.zip_nil_left, List.zip_nil_right]
  simp only [List.foldlM_cons, List.foldlM_nil, parseComponent, hop1, hop2, hop3,
    stoiInt_intToChars, stoiInt_space_int, hname, Option.some_bind, Option.map_some',
    Option.pure_def]
  simp [mkMac]

/-- Parsing the printed form of a `Maci(pmd, acc, s1, imm, res)`
instruction recovers it. -/
theorem parse_print_maci (pmd : ℤ) (acc s1 imm : Operand) (res : ℤ)
    (hacc : goodReg acc) (hs1 : goodReg s1)
    (himl : goodLoc imm.location) (himb : imm.bank = none) :
    parseLine (printInstr true (mkMaci pmd acc s1 imm res))
      = some (mkMaci pmd acc s1 imm res) := by
  have himm : printOperand true { imm with immediate := true } = imm.location := by
    simp [printOperand]
  have hprint : printInstr true (mkMaci pmd acc s1 imm res)
      = sepJoin [intToChars pmd, "maci".toList ++ [' '], printOperand true acc,
          printOperand true s1, printOperand true { imm with immediate := true }, intToChars res] := rfl
  have hsplit : cppSplit (sepJoin [intToChars pmd, "maci".toList ++ [' '],
      printOperand true acc, printOperand true s1, printOperand true { imm with immediate := true },
      intToChars res]) ','
      = [intToChars pmd, ' ' :: ("maci".toList ++ [' ']), ' ' :: printOperand true acc,
         ' ' :: printOperand true s1, ' ' :: printOperand true { imm with immediate := true },
         ' ' :: intToChars res] := by
    rw [cppSplit_sepJoin _ _ (intToChars_ne_nil pmd) (intToChars_no_comma pmd) ?hr]
    case hr =>
      intro f hf
      simp only [List.mem_cons, List.not_mem_nil, or_false] at hf
      rcases hf with rfl | rfl | rfl | rfl | rfl
      · intro c hc; revert hc; revert c; decide
      · exact printOperand_no_comma true acc (fun c hc => (hacc.1.2 c hc).1)
      · exact printOperand_no_comma true s1 (fun c hc => (hs1.1.2 c hc).1)
      · exact printOperand_no_comma true _ (fun c hc => (himl.2 c hc).1)
      · exact intToChars_no_comma res
    rfl
  have hname : whiteSpaceRemoved (' ' :: ("maci".toList ++ [' '])) = "maci".toList := by
    decide
  have hop1 : operandOfToken (' ' :: printOperand true acc) = some acc :=
    operandOfToken_print acc hacc
  have hop2 : operandOfToken (' ' :: printOperand true s1) = some s1 :=
    operandOfToken_print s1 hs1
  have hcleanImm : whiteSpaceRemoved (' ' :: imm.location) = imm.location := by
    rw [whiteSpaceRemoved_space_cons]
    exact whiteSpaceRemoved_clean _ (fun c hc => (himl.2 c hc).2)
  show parseInstruction (cppSplit (printInstr true (mkMaci pmd acc s1 imm res)) ',')
      = some (mkMaci pmd acc s1 imm res)
  rw [hprint, hsplit]
  simp only [parseInstruction, List.getElem?_cons_succ, List.getElem?_cons_zero,
    Option.some_bind, hname]
  rw [show instructionMapLookup ("maci".toList)
      = some (description_Maci, ({ name := ("maci".toList) } : Instr)) from rfl]
  simp only [Option.some_bind]
  rw [if_pos (by simp [description_Maci])]
  simp only [description_Maci, List.zip_cons_cons, List.zip_nil_left, List.zip_nil_right]
  simp only [List.foldlM_cons, List.foldlM_nil, parseComponent, hop1, hop2, himm,
    hcleanImm, stoiInt_intToChars, stoiInt_space_int, hname, Option.some_bind,
    Option.map_some', Option.pure_def]
  simp [mkMaci, himb]

/-- Parsing the printed form of a `Muli(pmd, dst, s1, imm, res)`
instruction recovers it. -/
theorem parse_print_muli (pmd : ℤ) (dst s1 imm : Operand) (res : ℤ)
    (hdst : goodReg dst) (hs1 : goodReg s1)
    (himl : goodLoc imm.location) (himb : imm.bank = none) :
    parseLine (printInstr true (mkMuli pmd dst s1 imm res))
      = some (mkMuli pmd dst s1 imm res) := by
  have himm : printOperand true { imm with immediate := true } = imm.location := by
    simp [printOperand]
  have hprint : printInstr true (mkMuli pmd dst s1 imm res)
      = sepJoin [intToChars pmd, "muli".toList ++ [' '], printOperand true dst,
          printOperand true s1, printOperand true { imm with immediate := true }, intToChars res] := rfl
  have hsplit : cppSplit (sepJoin [intToChars pmd, "muli".toList ++ [' '],
      printOperand true dst, printOperand true s1, printOperand true { imm with immediate := true },
      intToChars res]) ','
      = [intToChars pmd, ' ' :: ("muli".toList ++ [' ']), ' ' :: printOperand true dst,
         ' ' :: printOperand true s1, ' ' :: printOperand true { imm with immediate := true },
         ' ' :: intToChars res] := by
    rw [cppSplit_sepJoin _ _ (intToChars_ne_nil pmd) (intToChars_no_comma pmd) ?hr]
    case hr =>
      intro f hf
      simp only [List.mem_cons, List.not_mem_nil, or_false] at hf
      rcases hf with rfl | rfl | rfl | rfl | rfl
      · intro c hc; revert hc; revert c; decide
      · exact printOperand_no_comma true dst (fun c hc => (hdst.1.2 c hc).1)
      · exact printOperand_no_comma true s1 (fun c hc => (hs1.1.2 c hc).1)
      · exact printOperand_no_comma true _ (fun c hc => (himl.2 c hc).1)
      · exact intToChars_no_comma res
    rfl
  have hname : whiteSpaceRemoved (' ' :: ("muli".toList ++ [' '])) = "muli".toList := by
    decide
  have hop1 : operandOfToken (' ' :: printOperand true dst) = some dst :=
    operandOfToken_print dst hdst
  have hop2 : operandOfToken (' ' :: printOperand true s1) = some s1 :=
    operandOfToken_print s1 hs1
  have hcleanImm : whiteSpaceRemoved (' ' :: imm.location) = imm.location := by
    rw [whiteSpaceRemoved_space_cons]
    exact whiteSpaceRemoved_clean _ (fun c hc => (himl.2 c hc).2)
  show parseInstruction (cppSplit (printInstr true (mkMuli pmd dst s1 imm res)) ',')
      = some (mkMuli pmd dst s1 imm res)
  rw [hprint, hsplit]
  simp only [parseInstruction, List.getElem?_cons_succ, List.getElem?_cons_zero,
    Option.some_bind, hname]
  rw [show instructionMapLookup ("muli".toList)
      = some (description_Muli, ({ name := ("muli".toList) } : Instr)) from rfl]
  simp only [Option.some_bind]
  rw [if_pos (by simp [description_Muli])]
  simp only [description_Muli, List.zip_cons_cons, List.zip_nil_left, List.zip_nil_right]
  simp only [List.foldlM_cons, List.foldlM_nil, parseComponent, hop1, hop2, himm,
    hcleanImm, stoiInt_intToChars, stoiInt_space_int, hname, Option.some_bind,
    Option.map_some', Option.pure_def]
  simp [mkMuli, himb]

/-- Parsing the printed form of an `Ntt(pmd, d0, d1, s0, s1, w, res)`
instruction recovers it. -/
theorem parse_print_ntt (pmd : ℤ) (d0 d1 s0 s1 : Operand) (w : WParam) (res : ℤ)
    (hd0 : goodReg d0) (hd1 : goodReg d1) (hs0 : goodReg s0) (hs1 : goodReg s1) :
    parseLine (printInstr true (mkNtt pmd d0 d1 s0 s1 w res))
      = some (mkNtt pmd d0 d1 s0 s1 w res) := by
  have hprint : printInstr true (mkNtt pmd d0 d1 s0 s1 w res)
      = sepJoin [intToChars pmd, "ntt".toList ++ [' '], printOperand true d0,
          printOperand true d1, printOperand true s0, printOperand true s1,
          'w' :: '_' :: (intToChars w.residual ++
            '_' :: (intToChars w.stage ++ '_' :: intToChars w.block)),
          intToChars res] := rfl
  have hsplit : cppSplit (sepJoin [intToChars pmd, "ntt".toList ++ [' '],
      printOperand true d0, printOperand true d1, printOperand true s0, printOperand true s1,
      'w' :: '_' :: (intToChars w.residual ++
        '_' :: (intToChars w.stage ++ '_' :: intToChars w.block)),
      intToChars res]) ','
      = [intToChars pmd, ' ' :: ("ntt".toList ++ [' ']), ' ' :: printOperand true d0,
         ' ' :: printOperand true d1, ' ' :: printOperand true s0, ' ' :: printOperand true s1,
         ' ' :: ('w' :: '_' :: (intToChars w.residual ++
           '_' :: (intToChars w.stage ++ '_' :: intToChars w.block))),
         ' ' :: intToChars res] := by
    rw [cppSplit_sepJoin _ _ (intToChars_ne_nil pmd) (intToChars_no_comma pmd) ?hr]
    case hr =>
      intro f hf
      simp only [List.mem_cons, List.not_mem_nil, or_false] at hf
      rcases hf with rfl | rfl | rfl | rfl | rfl | rfl | rfl
      · intro c hc; revert hc; revert c; decide
      · exact printOperand_no_comma true d0 (fun c hc => (hd0.1.2 c hc).1)
      · exact printOperand_no_comma true d1 (fun c hc => (hd1.1.2 c hc).1)
      · exact printOperand_no_comma true s0 (fun c hc => (hs0.1.2 c hc).1)
      · exact printOperand_no_comma true s1 (fun c hc => (hs1.1.2 c hc).1)
      · exact wfield_no_comma w
      · exact intToChars_no_comma res
    rfl
  have hname : whiteSpaceRemoved (' ' :: ("ntt".toList ++ [' '])) = "ntt".toList := by
    decide
  have hop1 : operandOfToken (' ' :: printOperand true d0) = some d0 :=
    operandOfToken_print d0 hd0
  have hop2 : operandOfToken (' ' :: printOperand true d1) = some d1 :=
    operandOfToken_print d1 hd1
  have hop3 : operandOfToken (' ' :: printOperand true s0) = some s0 :=
    operandOfToken_print s0 hs0
  have hop4 : operandOfToken (' ' :: printOperand true s1) = some s1 :=
    operandOfToken_print s1 hs1
  have hw := wparamOfToken_print w
  show parseInstruction (cppSplit (printInstr true (mkNtt pmd d0 d1 s0 s1 w res)) ',')
      = some (mkNtt pmd d0 d1 s0 s1 w res)
  rw [hprint, hsplit]
  simp only [parseInstruction, List.getElem?_cons_succ, List.getElem?_cons_zero,
    Option.some_bind, hname]
  rw [show instructionMapLookup ("ntt".toList)
      = some (description_Ntt, ({ name := ("ntt".toList) } : Instr)) from rfl]
  simp only [Option.some_bind]
  rw [if_pos (by simp [description_Ntt])]
  simp only [description_Ntt, List.zip_cons_cons, List.zip_nil_left, List.zip_nil_right]
  simp only [List.foldlM_cons, List.foldlM_nil, parseComponent, hop1, hop2, hop3, hop4,
    hw, stoiInt_intToChars, stoiInt_space_int, hname, Option.some_bind, Option.map_some',
    Option.pure_def]
  simp [mkNtt]

/-- Parsing the printed form of an `Intt(pmd, d0, d1, s0, s1, w, res, g)`
instruction recovers it. -/
theorem parse_print_intt (pmd : ℤ) (d0 d1 s0 s1 : Operand) (w : WParam) (res g : ℤ)
    (hd0 : goodReg d0) (hd1 : goodReg d1) (hs0 : goodReg s0) (hs1 : goodReg s1) :
    parseLine (printInstr true (mkIntt pmd d0 d1 s0 s1 w res g))
      = some (mkIntt pmd d0 d1 s0 s1 w res g) := by
  have hprint : printInstr true (mkIntt pmd d0 d1 s0 s1 w res g)
      = sepJoin [intToChars pmd, "intt".toList ++ [' '], printOperand true d0,
          printOperand true d1, printOperand true s0, printOperand true s1,
          'w' :: '_' :: (intToChars w.residual ++
            '_' :: (intToChars w.stage ++ '_' :: intToChars w.block)),
          intToChars res, intToChars g] := rfl
  have hsplit : cppSplit (sepJoin [intToChars pmd, "intt".toList ++ [' '],
      printOperand true d0, printOperand true d1, printOperand true s0, printOperand true s1,
      'w' :: '_' :: (intToChars w.residual ++
        '_' :: (intToChars w.stage ++ '_' :: intToChars w.block)),
      intToChars res, intToChars g]) ','
      = [intToChars pmd, ' ' :: ("intt".toList ++ [' ']), ' ' :: printOperand true d0,
         ' ' :: printOperand true d1, ' ' :: printOperand true s0, ' ' :: printOperand true s1,
         ' ' :: ('w' :: '_' :: (intToChars w.residual ++
           '_' :: (intToChars w.stage ++ '_' :: intToChars w.block))),
         ' ' :: intToChars res, ' ' :: intToChars g] := by
    rw [cppSplit_sepJoin _ _ (intToChars_ne_nil pmd) (intToChars_no_comma pmd) ?hr]
    case hr =>
      intro f hf
      simp only [List.mem_cons, List.not_mem_nil, or_false] at hf
      rcases hf with rfl | rfl | rfl | rfl | rfl | rfl | rfl | rfl
      · intro c hc; revert hc; revert c; decide
      · exact printOperand_no_comma true d0 (fun c hc => (hd0.1.2 c hc).1)
      · exact printOperand_no_comma true d1 (fun c hc => (hd1.1.2 c hc).1)
      · exact printOperand_no_comma true s0 (fun c hc => (hs0.1.2 c hc).1)
      · exact printOperand_no_comma true s1 (fun c hc => (hs1.1.2 c hc).1)
      · exact wfield_no_comma w
      · exact intToChars_no_comma res
      · exact intToChars_no_comma g
    rfl
  have hname : whiteSpaceRemoved (' ' :: ("intt".toList ++ [' '])) = "intt".toList := by
    decide
  have hop1 : operandOfToken (' ' :: printOperand true d0) = some d0 :=
    operandOfToken_print d0 hd0
  have hop2 : operandOfToken (' ' :: printOperand true d1) = some d1 :=
    operandOfToken_print d1 hd1
  have hop3 : operandOfToken (' ' :: printOperand true s0) = some s0 :=
    operandOfToken_print s0 hs0
  have hop4 : operandOfToken (' ' :: printOperand true s1) = some s1 :=
    operandOfToken_print s1 hs1
  have hw := wparamOfToken_print w
  show parseInstruction (cppSplit (printInstr true (mkIntt pmd d0 d1 s0 s1 w res g)) ',')
      = some (mkIntt pmd d0 d1 s0 s1 w res g)
  rw [hprint, hsplit]
  simp only [parseInstruction, List.getElem?_cons_succ, List.getElem?_cons_zero,
    Option.some_bind, hname]
  rw [show instructionMapLookup ("intt".toList)
      = some (description_Intt, ({ name := ("intt".toList), galois := 1 } : Instr)) from rfl]
  simp only [Option.some_bind]
  rw [if_pos (by simp [description_Intt])]
  simp only [description_Intt, List.zip_cons_cons, List.zip_nil_left, List.zip_nil_right]
  simp only [List.foldlM_cons, List.foldlM_nil, parseComponent, hop1, hop2, hop3, hop4,
    hw, stoiInt_intToChars, stoiInt_space_int, hname, Option.some_bind, Option.map_some',
    Option.pure_def]
  simp [mkIntt]

/-- Parsing the printed form of a `Copy(pmd, dst, src)` instruction
recovers it. -/
theorem parse_print_copy (pmd : ℤ) (dst src : Operand)
    (hdst : goodReg dst) (hsrc : goodReg src) :
    parseLine (printInstr true (mkCopy pmd dst src)) = some (mkCopy pmd dst src) := by
  have hprint : printInstr true (mkCopy pmd dst src)
      = sepJoin [intToChars pmd, "copy".toList ++ [' '], printOperand true dst,
          printOperand true src] := rfl
  have hsplit : cppSplit (sepJoin [intToChars pmd, "copy".toList ++ [' '],
      printOperand true dst, printOperand true src]) ','
      = [intToChars pmd, ' ' :: ("copy".toList ++ [' ']), ' ' :: printOperand true dst,
         ' ' :: printOperand true src] := by
    rw [cppSplit_sepJoin _ _ (intToChars_ne_nil pmd) (intToChars_no_comma pmd) ?hr]
    case hr =>
      intro f hf
      simp only [List.mem_cons, List.not_mem_nil, or_false] at hf
      rcases hf with rfl | rfl | rfl
      · intro c hc; revert hc; revert c; decide
      · exact printOperand_no_comma true dst (fun c hc => (hdst.1.2 c hc).1)
      · exact printOperand_no_comma true src (fun c hc => (hsrc.1.2 c hc).1)
    rfl
  have hname : whiteSpaceRemoved (' ' :: ("copy".toList ++ [' '])) = "copy".toList := by
    decide
  have hop1 : operandOfToken (' ' :: printOperand true dst) = some dst :=
    operandOfToken_print dst hdst
  have hop2 : operandOfToken (' ' :: printOperand true src) = some src :=
    operandOfToken_print src hsrc
  show parseInstruction (cppSplit (printInstr true (mkCopy pmd dst src)) ',')
      = some (mkCopy pmd dst src)
  rw [hprint, hsplit]
  simp only [parseInstruction, List.getElem?_cons_succ, List.getElem?_cons_zero,
    Option.some_bind, hname]
  rw [show instructionMapLookup ("copy".toList)
      = some (description_Copy, ({ name := ("copy".toList), residual := 0 } : Instr)) from rfl]
  simp only [Option.some_bind]
  rw [if_pos (by simp [description_Copy])]
  simp only [description_Copy, List.zip_cons_cons, List.zip_nil_left, List.zip_nil_right]
  simp only [List.foldlM_cons, List.foldlM_nil, parseComponent, hop1, hop2,
    stoiInt_intToChars, stoiInt_space_int, hname, Option.some_bind, Option.map_some',
    Option.pure_def]
  simp [mkCopy]

/-- For every opcode in add, sub, mul, muli, mac, maci, ntt, intt, copy
and every instruction `I` of that opcode with every descriptor field
populated, parsing the CSV form printed under the `true` resolution of the
uninitialized `m_output_block` read — the resolution under which operand
banks are printed — yields `I` back.  (Under the `false` resolution the
banks are dropped and the round trip fails; see the C4 theorem.) -/
theorem parse_print_roundtrip (I : Instr) (h : WellFormedInstr I) :
    parseLine (printInstr true I) = some I := by
  rcases h with ⟨pmd, dst, s1, s2, res, hdst, hs1, hs2, hI | hI | hI⟩
    | ⟨pmd, acc, s1, s2, res, hacc, hs1, hs2, hI⟩
    | ⟨pmd, acc, s1, imm, res, hacc, hs1, himl, himb, hI⟩
    | ⟨pmd, dst, s1, imm, res, hdst, hs1, himl, himb, hI⟩
    | ⟨pmd, d0, d1, s0, s1, w, res, hd0, hd1, hs0, hs1, hI⟩
    | ⟨pmd, d0, d1, s0, s1, w, res, g, hd0, hd1, hs0, hs1, hI⟩
    | ⟨pmd, dst, src, hdst, hsrc, hI⟩
  · exact hI ▸ parse_print_add pmd dst s1 s2 res hdst hs1 hs2
  · exact hI ▸ parse_print_sub pmd dst s1 s2 res hdst hs1 hs2
  · exact hI ▸ parse_print_mul pmd dst s1 s2 res hdst hs1 hs2
  · exact hI ▸ parse_print_mac pmd acc s1 s2 res hacc hs1 hs2
  · exact hI ▸ parse_print_maci pmd acc s1 imm res hacc hs1 himl himb
  · exact hI ▸ parse_print_muli pmd dst s1 imm res hdst hs1 himl himb
  · exact hI ▸ parse_print_ntt pmd d0 d1 s0 s1 w res hd0 hd1 hs0 hs1
  · exact hI ▸ parse_print_intt pmd d0 d1 s0 s1 w res g hd0 hd1 hs0 hs1
  · exact hI ▸ parse_print_copy pmd dst src hdst hsrc

/-- `parse_print_roundtrip` at the S5 scenario instruction, together with
the S5 concrete check: the input line parses to that instruction and
printing it under the bank-printing resolution reproduces the line up to
the whitespace around the opcode (`add` gains a trailing space). -/
theorem parse_print_roundtrip_witness :
    WellFormedInstr c4S5Instr ∧
    parseLine (printInstr true c4S5Instr) = some c4S5Instr ∧
    parseLine ("13, add, r_0_1 (2), r_0_2 (0), r_0_3 (0), 0".toList) = some c4S5Instr ∧
    printInstr true c4S5Instr = "13, add , r_0_1 (2), r_0_2 (0), r_0_3 (0), 0".toList := by
  have hwf : WellFormedInstr c4S5Instr :=
    Or.inl ⟨13, { location := "r_0_1".toList, bank := some 2, immediate := false },
      { location := "r_0_2".toList, bank := some 0, immediate := false },
      { location := "r_0_3".toList, bank := some 0, immediate := false }, 0,
      by decide, by decide, by decide, Or.inl rfl⟩
  exact ⟨hwf, parse_print_roundtrip c4S5Instr hwf, by decide, by decide⟩

/-- **C4**: the claimed round trip `parse(print(I)) = I` is gated by the
uninitialized `m_output_block` member of `PISAInstruction`
(p_isa_instruction.h line 360): printing copies this indeterminate bool
into every operand's `m_output_bank` (p_isa_instruction.cpp lines 18-28)
and `Operand::operator<<` prints the bank only when it is true.  At the S5
instruction, the `true` resolution of that read round-trips (and, by
`parse_print_roundtrip`, so does every well-formed instruction), while the
`false` resolution prints the S5 line without the banks, and re-parsing
that line loses every bank assignment: `parse(print(I)) ≠ I`. -/
theorem parse_print_output_block_bug :
    parseLine (printInstr true c4S5Instr) = some c4S5Instr ∧
    printInstr false c4S5Instr = "13, add , r_0_1, r_0_2, r_0_3, 0".toList ∧
    parseLine (printInstr false c4S5Instr) ≠ some c4S5Instr := by
  decide

/-! ## Lemmas: dependency-graph layering (claim C9) -/

/-- **C9**: for the instruction sequence `[add c a b; add d a b;
mul e c d]`, the input-layer peel of the dependency graph built from those
instructions (the instruction graph, as composed at
functional_modeler/main.cpp lines 290-292) returns exactly 2 layers: the
first contains the two `add` operation nodes and the second the `mul`
operation node. -/
theorem graph_input_layers_s6 :
    getGraphInputLayers (getInstructionGraph (createGraph c9Prog))
      = [[{ id := 0, label := "add_0".toList, ntype := NodeType.OPERATION },
          { id := 4, label := "add_4".toList, ntype := NodeType.OPERATION }],
         [{ id := 6, label := "mul_6".toList, ntype := NodeType.OPERATION }]] := by
  decide

/-! ## Theorems and claim resolutions -/

/-- C8: with the Montgomery switch off, the add kernel computes
`a + (b mod q)` (a C++ precedence slip in `return a + b % modulus`), not
`(a + b) mod q`.  At `a = 16, b = 1, q = 17` the code returns `17`, while the
specified fallback value is `(16 + 1) mod 17 = 0`. -/
theorem montgomeryAdd_fallback_bug :
    montgomeryAdd 16 1 17 false = 17 ∧ (16 + 1) % 17 = 0 := by decide

/-- REDC core lemma: when the modulus `q` is `1` modulo `2 ^ 16`, the value
`u' = (u + ((u mod 2 ^ 32) * (q - 2) mod 2 ^ 32) * q) >> 32` computed by
`montgomeryMul` is below `2 q` and satisfies `u' * 2 ^ 32 ≡ u (mod q)`. -/
theorem redc_div_bound_congr (u q : ℕ) (hq2 : 2 ≤ q) (hq : q < 2 ^ 31)
    (hdvd : 2 ^ 16 ∣ q - 1) (hu : u < q * q) :
    (u + u % 2 ^ 32 * (q - 2) % 2 ^ 32 * q) % 2 ^ 64 / 2 ^ 32 < 2 * q ∧
    (u + u % 2 ^ 32 * (q - 2) % 2 ^ 32 * q) % 2 ^ 64 / 2 ^ 32 * 2 ^ 32 ≡ u [MOD q] := by
  set t := u % 2 ^ 32 with ht
  set m := t * (q - 2) % 2 ^ 32 with hm
  have ht32 : t < 2 ^ 32 := Nat.mod_lt _ (by norm_num)
  have hm32 : m < 2 ^ 32 := Nat.mod_lt _ (by norm_num)
  have hq32 : q < 2 ^ 32 := by omega
  have hq0 : 0 < q := by omega
  have hu64 : u < 2 ^ 62 := lt_trans hu (by nlinarith)
  have hmq : m * q < 2 ^ 63 := by nlinarith
  have hno : u + m * q < 2 ^ 64 := by omega
  have hmod64 : (u + m * q) % 2 ^ 64 = u + m * q := Nat.mod_eq_of_lt hno
  obtain ⟨e, he⟩ := hdvd
  have hsq : (q - 2) * q + 1 = (q - 1) ^ 2 := by
    zify [show 2 ≤ q from hq2, show 1 ≤ q by omega]; ring
  have hd2 : (2 ^ 32 : ℕ) ∣ (q - 1) ^ 2 := ⟨e ^ 2, by rw [he]; ring⟩
  have hdvd32 : (2 ^ 32 : ℕ) ∣ u + m * q := by
    have h1 : u ≡ t [MOD 2 ^ 32] := (Nat.mod_modEq u (2 ^ 32)).symm
    have h2 : m ≡ t * (q - 2) [MOD 2 ^ 32] := Nat.mod_modEq _ _
    have h3 : u + m * q ≡ t + t * (q - 2) * q [MOD 2 ^ 32] := h1.add (h2.mul_right q)
    have h4 : t + t * (q - 2) * q = t * (q - 1) ^ 2 := by rw [← hsq]; ring
    have h5 : t + t * (q - 2) * q ≡ 0 [MOD 2 ^ 32] := by
      rw [h4]
      exact Nat.modEq_zero_iff_dvd.mpr (Dvd.dvd.mul_left hd2 t)
    exact Nat.modEq_zero_iff_dvd.mp (h3.trans h5)
  rw [hmod64]
  have hdiv : (u + m * q) / 2 ^ 32 * 2 ^ 32 = u + m * q := Nat.div_mul_cancel hdvd32
  constructor
  · have hlt : u + m * q < 2 * q * 2 ^ 32 := by nlinarith
    exact Nat.div_lt_of_lt_mul (by nlinarith)
  · rw [hdiv]
    have hz : m * q ≡ 0 [MOD q] := Nat.modEq_zero_iff_dvd.mpr ⟨m, mul_comm m q⟩
    calc u + m * q ≡ u + 0 [MOD q] := (Nat.ModEq.refl u).add hz
      _ = u := by ring

/-- C1 (amended): for a modulus `q < 2 ^ 31` that is congruent to `1`
modulo `2 ^ 16` (so that `k = q - 2` really is `-q⁻¹ mod 2 ^ 32`) and any
`a, b ∈ [0, q)`, `montgomeryMul a b q` lies in `[0, q)` and agrees with the
reference Montgomery product `a * b * R⁻¹ mod q` with `R = 2 ^ 32`; agreement
is stated as the defining congruence `result * 2 ^ 32 ≡ a * b (mod q)`, which
pins the result uniquely below `q` because `2 ^ 32` is invertible mod the odd
modulus `q`. -/
theorem montgomeryMul_identity (a b q : ℕ) (hq : q < 2 ^ 31) (hdvd : 2 ^ 16 ∣ q - 1)
    (ha : a < q) (hb : b < q) :
    montgomeryMul a b q < q ∧ montgomeryMul a b q * 2 ^ 32 ≡ a * b [MOD q] := by
  have hq0 : 0 < q := lt_of_le_of_lt (Nat.zero_le a) ha
  rcases Nat.lt_or_ge q 2 with h1 | h2
  · have hq1 : q = 1 := by omega
    subst hq1
    have ha0 : a = 0 := by omega
    have hb0 : b = 0 := by omega
    subst ha0; subst hb0
    exact ⟨by decide, Nat.modEq_one⟩
  · have hk : (q + 2 ^ 32 - 2) % 2 ^ 32 = q - 2 := by omega
    have hu : a * b < q * q := by nlinarith
    obtain ⟨h5, h6⟩ := redc_div_bound_congr (a * b) q h2 hq hdvd hu
    have hMM : montgomeryMul a b q =
        if q ≤ (a * b + a * b % 2 ^ 32 * (q - 2) % 2 ^ 32 * q) % 2 ^ 64 / 2 ^ 32 then
          (a * b + a * b % 2 ^ 32 * (q - 2) % 2 ^ 32 * q) % 2 ^ 64 / 2 ^ 32 - q
        else (a * b + a * b % 2 ^ 32 * (q - 2) % 2 ^ 32 * q) % 2 ^ 64 / 2 ^ 32 := by
      simp only [montgomeryMul, hk, if_true]
    set u2 := (a * b + a * b % 2 ^ 32 * (q - 2) % 2 ^ 32 * q) % 2 ^ 64 / 2 ^ 32 with hu2
    rw [hMM]
    by_cases h : q ≤ u2
    · rw [if_pos h]
      refine ⟨by omega, ?_⟩
      have hsub : u2 - q ≡ u2 [MOD q] := by
        show (u2 - q) % q = u2 % q
        conv_rhs => rw [← Nat.sub_add_cancel h, Nat.add_mod_right]
      exact (hsub.mul_right (2 ^ 32)).trans h6
    · rw [if_neg h]
      exact ⟨by omega, h6⟩

/-- C1 counterexample: for the modulus `q = 3` (not `1` mod `2 ^ 16`) and
`a = b = 1`, `montgomeryMul 1 1 3` returns `0`, which does not agree with the
reference `1 * 1 * R⁻¹ mod 3`: any value agreeing with the reference must
satisfy `v * 2 ^ 32 ≡ 1 * 1 (mod 3)`, and `0` does not. -/
theorem montgomeryMul_q3_counterexample :
    montgomeryMul 1 1 3 = 0 ∧ ¬ montgomeryMul 1 1 3 * 2 ^ 32 ≡ 1 * 1 [MOD 3] := by
  decide

/-- C1 witness: the amended identity instantiated at the Fermat prime
`q = 65537 = 2 ^ 16 + 1` with `a = b = 1`. -/
theorem montgomeryMul_identity_witness :
    (65537 : ℕ) < 2 ^ 31 ∧ (2 ^ 16 : ℕ) ∣ 65537 - 1 ∧ (1 : ℕ) < 65537 ∧
    montgomeryMul 1 1 65537 < 65537 ∧
    montgomeryMul 1 1 65537 * 2 ^ 32 ≡ 1 * 1 [MOD 65537] :=
  ⟨by norm_num, by norm_num, by norm_num,
    (montgomeryMul_identity 1 1 65537 (by norm_num) (by norm_num) (by norm_num)
      (by norm_num)).1,
    (montgomeryMul_identity 1 1 65537 (by norm_num) (by norm_num) (by norm_num)
      (by norm_num)).2⟩

end PISA
